import Mathlib

/-!
Shallow embedding of the PowerOnBot power-outage schedule bot
(`src/index.ts` and its extended variant) in Lean 4.

JavaScript strings are modelled as `List Char`.  The functions below are
direct translations of the source's string helpers:
`normalizeMultilineText`, `extractGroupLinesOnly`, `normalizeGroupId`,
`parseGroupsFromUserInput`, `parseGroupSchedulesFromText`, the state-shape
normalizer `normalizeStateShape` / `readStateFromDisk`, and the
change-detection procedure `checkOneChat`.
-/

namespace PowerOnBot

/-- JavaScript strings, modelled as lists of characters. -/
abbrev Str := List Char

/-- The whitespace class used by JavaScript `String.prototype.trim` and the
regex class `\s`, restricted to the code points that can actually occur in
the texts handled by the bot (space, tab, newline, carriage return,
vertical tab, form feed). -/
def isJsWs (c : Char) : Bool :=
  c == ' ' || c == '\t' || c == '\n' || c == '\r' || c == '\u000B' || c == '\u000C'

/-- Drop leading JS whitespace. -/
def dropWs (s : Str) : Str := s.dropWhile isJsWs

/-- `s.trimStart()`. -/
def trimLeft (s : Str) : Str := dropWs s

/-- `s.trimEnd()`. -/
def trimRight (s : Str) : Str := (dropWs s.reverse).reverse

/-- JavaScript `s.trim()`. -/
def trimLine (s : Str) : Str := trimRight (trimLeft s)

/-- JavaScript `s.split('\n')` (always returns at least one piece). -/
def splitNL : Str → List Str
  | [] => [[]]
  | c :: rest =>
    if c = '\n' then [] :: splitNL rest
    else
      match splitNL rest with
      | [] => [[c]]
      | l :: ls => (c :: l) :: ls

/-- JavaScript `lines.join('\n')`. -/
def joinNL : List Str → Str
  | [] => []
  | [l] => l
  | l :: ls => l ++ '\n' :: joinNL ls

/-- JavaScript `raw.replace(/\r\n/g, '\n')`: left-to-right, non-overlapping
replacement of each CRLF pair by a bare newline. -/
def replaceCRLF : Str → Str
  | [] => []
  | [c] => [c]
  | c1 :: c2 :: rest =>
    if c1 = '\r' ∧ c2 = '\n' then '\n' :: replaceCRLF rest
    else c1 :: replaceCRLF (c2 :: rest)

/-- The line list produced inside `normalizeMultilineText`: split on
newlines, trim every line, drop the blank ones. -/
def normalizedLines (raw : Str) : List Str :=
  ((splitNL (replaceCRLF raw)).map trimLine).filter (fun l => l ≠ [])

/-- `normalizeMultilineText` from the source: normalize CRLF, split into
lines, trim each, drop blanks, rejoin with `'\n'`, and trim the result. -/
def normalizeMultilineText (raw : Str) : Str :=
  trimLine (joinNL (normalizedLines raw))

/-- ASCII digit test, the regex class `\d`. -/
def isDigitC (c : Char) : Bool := '0' ≤ c && c ≤ '9'

/-- Case folding for the `/i` regex flag, restricted to the letters that
occur in the pattern literal `Група` (JavaScript's canonicalisation folds
Cyrillic case pairs even without the `u` flag). -/
def ukFold (c : Char) : Char :=
  if c = 'Г' then 'г'
  else if c = 'Р' then 'р'
  else if c = 'У' then 'у'
  else if c = 'П' then 'п'
  else if c = 'А' then 'а'
  else c

/-- Match a literal pattern case-insensitively at the start of the input,
returning the rest of the input. -/
def dropLitCI : Str → Str → Option Str
  | [], s => some s
  | _ :: _, [] => none
  | p :: ps, c :: cs => if ukFold p = ukFold c then dropLitCI ps cs else none

/-- Match one-or-more characters satisfying `p` (greedy), returning the
rest.  Faithful to `\s+`/`\d+` at the positions where the source uses
them, because there the character class and the following pattern
character are disjoint, so greedy matching never needs to backtrack. -/
def dropPlus (p : Char → Bool) : Str → Option Str
  | [] => none
  | c :: rest => if p c then some (rest.dropWhile p) else none

/-- Match a single character `c`, returning the rest. -/
def dropChar (c : Char) : Str → Option Str
  | [] => none
  | d :: rest => if d = c then some rest else none

/-- Match `[.,]`, returning the rest. -/
def dropSep : Str → Option Str
  | [] => none
  | d :: rest => if d = '.' ∨ d = ',' then some rest else none

/-- Capture one-or-more digits (greedy), returning them and the rest. -/
def takeDigits1 : Str → Option (Str × Str)
  | [] => none
  | c :: rest =>
    if isDigitC c then some (c :: rest.takeWhile isDigitC, rest.dropWhile isDigitC)
    else none

/-- The pattern literal `Група`. -/
def litGrupa : Str := "Група".data

/-- The anchored test `/^Група\s+\d+[.,]\d+\./i.test l` used by
`extractGroupLinesOnly`. -/
def isGroupLine (l : Str) : Bool :=
  (do
    let r1 ← dropLitCI litGrupa l
    let r2 ← dropPlus isJsWs r1
    let r3 ← dropPlus isDigitC r2
    let r4 ← dropSep r3
    let r5 ← dropPlus isDigitC r4
    dropChar '.' r5).isSome

/-- `extractGroupLinesOnly` from the source: keep only the lines of the
normalized text that match the anchored group-line pattern, rejoin and
trim. -/
def extractGroupLinesOnly (text : Str) : Str :=
  trimLine (joinNL ((splitNL (normalizeMultilineText text)).filter isGroupLine))

/-- Attempt of the unanchored pattern `Група\s+(\d+\.\d+)\./i` at the very
start of `l`, returning the capture `\d+\.\d+`. -/
def groupCapAt (l : Str) : Option Str := do
  let r1 ← dropLitCI litGrupa l
  let r2 ← dropPlus isJsWs r1
  let (a, r3) ← takeDigits1 r2
  let r4 ← dropChar '.' r3
  let (b, r5) ← takeDigits1 r4
  let _ ← dropChar '.' r5
  pure (a ++ '.' :: b)

/-- `line.match(/Група\s+(\d+\.\d+)\./i)`: first match anywhere in the
line (the regex engine tries each start position left to right). -/
def findGroupCap : Str → Option Str
  | [] => none
  | c :: rest =>
    match groupCapAt (c :: rest) with
    | some cap => some cap
    | none => findGroupCap rest

/-- JavaScript `Number` on a non-empty digit string.  Modelled as exact
natural-number conversion; the float rounding JavaScript applies above
2^53 can only affect candidate ids that the valid-group filter rejects
either way. -/
def natOfDigits (s : Str) : Nat :=
  s.foldl (fun acc c => acc * 10 + (c.toNat - '0'.toNat)) 0

/-- Decimal rendering of a natural number (the `${Number(...)}` template
conversion). -/
def natToStr (n : Nat) : Str := (Nat.repr n).data

/-- `normalizeGroupId` from the source: trim, match `^(\d+)[.,](\d+)$`,
and rebuild the id as `Number(major).Number(minor)` — which strips
leading zeros. -/
def normalizeGroupId (raw : Str) : Option Str :=
  let s := trimLine raw
  if s = [] then none
  else
    match takeDigits1 s with
    | none => none
    | some (a, r1) =>
      match dropSep r1 with
      | none => none
      | some r2 =>
        match takeDigits1 r2 with
        | none => none
        | some (b, r3) =>
          if r3 = [] then some (natToStr (natOfDigits a) ++ '.' :: natToStr (natOfDigits b))
          else none

/-- The fixed list of 12 valid subgroup ids. -/
def POSSIBLE_GROUPS : List Str :=
  ["1.1".data, "1.2".data, "2.1".data, "2.2".data, "3.1".data, "3.2".data,
   "4.1".data, "4.2".data, "5.1".data, "5.2".data, "6.1".data, "6.2".data]

/-- The scan loop `while ((m = re.exec(raw)) !== null)` for the global
regex `/(\d+)[.,](\d+)/g`: find the successive non-overlapping matches
left to right, resuming after each match.  Greedy `\d+` runs are maximal;
a match can never start inside a digit run that failed to extend into a
full match, so the scanner may skip whole runs. -/
def scanGroupTokens : Str → List (Str × Str)
  | [] => []
  | c :: rest =>
    if isDigitC c then
      let a := c :: rest.takeWhile isDigitC
      match h : rest.dropWhile isDigitC with
      | [] => []
      | s :: r2 =>
        if s = '.' ∨ s = ',' then
          match hr : r2 with
          | [] => []
          | d :: r3 =>
            if isDigitC d then
              (a, d :: r3.takeWhile isDigitC) :: scanGroupTokens (r3.dropWhile isDigitC)
            else scanGroupTokens (s :: r2)
        else scanGroupTokens (s :: r2)
    else scanGroupTokens rest
termination_by s => s.length
decreasing_by
  all_goals simp only [List.length_cons]
  · have h1 := (List.dropWhile_sublist (l := r3) isDigitC).length_le
    have h2 := (List.dropWhile_sublist (l := rest) isDigitC).length_le
    rw [h] at h2
    simp only [List.length_cons] at h2
    omega
  · subst hr
    have h2 := (List.dropWhile_sublist (l := rest) isDigitC).length_le
    rw [h] at h2
    simp only [List.length_cons] at h2 ⊢
    omega
  · have h2 := (List.dropWhile_sublist (l := rest) isDigitC).length_le
    rw [h] at h2
    simp only [List.length_cons] at h2
    omega
  · omega

/-- `parseGroupsFromUserInput` from the source: normalize each scanned
token, dedupe with `out.includes`, then keep only valid group ids. -/
def parseGroupsFromUserInput (raw : Str) : List Str :=
  let out := (scanGroupTokens raw).foldl
    (fun out ab =>
      match normalizeGroupId (ab.1 ++ '.' :: ab.2) with
      | some g => if g ∈ out then out else out ++ [g]
      | none => out) []
  out.filter (fun g => g ∈ POSSIBLE_GROUPS)

/-- The `pendingStep` input-mode values. -/
inductive PendingStep where
  | groups
  | groups_add
  | groups_remove
deriving DecidableEq, Repr

/-- The `lastLoeTomorrowStatus` values. -/
inductive TomorrowStatus where
  | missing
  | present
deriving DecidableEq, Repr

/-- A `Date` value.  ISO date strings in the runtime state are abstracted
to the calendar instant they denote (`toISOString` is injective, and
re-parsing an ISO string recovers the instant), so `toISOString` is the
identity here and `getDate` is a projection. -/
structure JsTime where
  year : Nat
  month : Nat
  day : Nat
deriving DecidableEq, Repr

/-- `new Date(t).getDate()`: the day of the month (process-local time,
which this model takes to agree with UTC). -/
def JsTime.getDate (t : JsTime) : Nat := t.day

/-- The per-chat `UserState` record of the source, with ISO timestamp
strings abstracted as `JsTime` instants. -/
structure UserState where
  groups : Option (List Str) := none
  pendingStep : Option PendingStep := none
  watching : Bool := false
  lastLoeCheckedAt : Option JsTime := none
  lastLoeNotifiedAt : Option JsTime := none
  lastLoeWatchedText : Option Str := none
  lastLoeError : Option Str := none
  lastLoeTomorrowCheckedAt : Option JsTime := none
  lastLoeTomorrowNotifiedAt : Option JsTime := none
  lastLoeTomorrowWatchedText : Option Str := none
  lastLoeTomorrowStatus : Option TomorrowStatus := none
  lastLoeTomorrowError : Option Str := none
deriving DecidableEq, Repr

/-- The per-day view built by `fetchLoePhotoGraficMenuItems`: the
HTML-stripped item text and the resolved image URL. -/
structure MenuItemView where
  itemText : Str
  imageUrl : Str
deriving DecidableEq, Repr

/-- Result payload of a successful fetch: the optional "Today" and
"Tomorrow" views. -/
structure FetchOk where
  today : Option MenuItemView
  tomorrow : Option MenuItemView
deriving DecidableEq, Repr

/-- The messages `checkOneChat` can send, tagged by which send site in the
source produced them, carrying the watched text included in the body. -/
inductive Notif where
  | noGroupsReply (e : Str)
  | errorReply (e : Str)
  | todayForced (text : Str)
  | todayArrived (text : Str)
  | todayChanged (text : Str)
  | tomorrowAppeared (text : Str)
  | tomorrowChanged (text : Str)
deriving DecidableEq, Repr

/-- Per-line group map `Record<string, string>` built by
`parseGroupSchedulesFromText`; object assignment means the last matching
line for a given id wins. -/
def parseGroupSchedulesFromText (text : Str) : Str → Option Str :=
  (splitNL (normalizeMultilineText text)).foldl
    (fun map line =>
      match findGroupCap line with
      | none => map
      | some cap =>
        match normalizeGroupId cap with
        | none => map
        | some g => fun k => if k = g then some line else map k)
    (fun _ => none)

/-- The `headerLines` computation: first two lines of the normalized item
text (blank lines dropped, though the normalized lines are already
non-blank). -/
def headerLinesOf (itemText : Str) : List Str :=
  ((splitNL (normalizeMultilineText itemText)).take 2).filter (fun l => l ≠ [])

/-- Placeholder line for a tracked group absent from today's update. -/
def placeholderToday (g : Str) : Str :=
  "Група ".data ++ g ++ ". (Не знайдено в оновленні)".data

/-- Placeholder line for a tracked group absent from tomorrow's schedule. -/
def placeholderTomorrow (g : Str) : Str :=
  "Група ".data ++ g ++ ". (Не знайдено в графіку на завтра)".data

/-- `[...headerLines, '', ...selectedLines].join('\n').trim()`. -/
def watchedTextOf (headerLines selectedLines : List Str) : Str :=
  trimLine (joinNL (headerLines ++ [[]] ++ selectedLines))

/-- JavaScript truthiness of a possibly-undefined string (`undefined` and
the empty string are falsy). -/
def truthyOptStr : Option Str → Bool
  | none => false
  | some s => !s.isEmpty

/-- The comparison `tomorrowPrevGroupsOnly !== tomorrowWatchedGroupsText`:
the left side may be `undefined`, which is `!==` to every string. -/
def optStrNeq : Option Str → Str → Bool
  | none, _ => true
  | some t, s => t != s

/-- The comparison `tomorrowHeaderLinesPrev !== tomorrowHeaderLinesCurrent`
from the source.  Both sides are freshly constructed arrays, and `!==` on
objects is reference inequality, so the comparison is `true` regardless of
the arrays' contents. -/
def jsArrayNeq (_ _ : List Str) : Bool := true

/-- Error text stored when a subscriber has no groups configured. -/
def msgNoGroups : Str :=
  "Не задано групи. Використайте /groups та введіть, наприклад: 1.1, 3.2".data

/-- Error text thrown when the fetch result has no "Today" item. -/
def msgNoToday : Str :=
  "LOE API не повернув елемент меню з name=\"Today\"".data

/-- `selectedLines` of the TODAY section: the tracked groups' mapped
lines, with placeholders for groups absent from the update. -/
def todaySelectedLines (gs : List Str) (td : MenuItemView) : List Str :=
  gs.map (fun g => (parseGroupSchedulesFromText td.itemText g).getD (placeholderToday g))

/-- `watchedText` of the TODAY section. -/
def todayWatchedText (gs : List Str) (td : MenuItemView) : Str :=
  watchedTextOf (headerLinesOf td.itemText) (todaySelectedLines gs td)

/-- `watchedGroupsText` of the TODAY section. -/
def todayWatchedGroupsText (gs : List Str) (td : MenuItemView) : Str :=
  trimLine (joinNL (todaySelectedLines gs td))

/-- `tomorrowSelectedLines` of the TOMORROW section. -/
def tomorrowSelectedLines (gs : List Str) (tm : MenuItemView) : List Str :=
  gs.map (fun g => (parseGroupSchedulesFromText tm.itemText g).getD (placeholderTomorrow g))

/-- `hasAnyTomorrowDataForSelectedGroups`. -/
def tomorrowHasAnyData (gs : List Str) (tm : MenuItemView) : Bool :=
  gs.any (fun g => (parseGroupSchedulesFromText tm.itemText g).isSome)

/-- `tomorrowWatchedText`. -/
def tomorrowWatchedText (gs : List Str) (tm : MenuItemView) : Str :=
  watchedTextOf (headerLinesOf tm.itemText) (tomorrowSelectedLines gs tm)

/-- `tomorrowWatchedGroupsText`. -/
def tomorrowWatchedGroupsText (gs : List Str) (tm : MenuItemView) : Str :=
  trimLine (joinNL (tomorrowSelectedLines gs tm))

/-- The TODAY section of `checkOneChat` (source lines between the fetch
and the TOMORROW section), acting on a subscriber with non-empty groups
`gs` and a present "Today" view `td`. -/
def todayPhase (user : UserState) (gs : List Str) (td : MenuItemView)
    (forceCheck : Bool) (now : JsTime) : UserState × List Notif :=
  let watchedText := todayWatchedText gs td
  let watchedGroupsText := todayWatchedGroupsText gs td
  let prev : Option Str :=
    if truthyOptStr user.lastLoeWatchedText then
      some (extractGroupLinesOnly (user.lastLoeWatchedText.getD []))
    else none
  let user := { user with lastLoeCheckedAt := some now, lastLoeError := none }
  let isNotifiedYesterday : Bool :=
    match user.lastLoeNotifiedAt with
    | some t => t.getDate != now.getDate
    | none => false
  if !truthyOptStr prev then
    let user := { user with lastLoeWatchedText := some watchedText }
    if forceCheck then
      ({ user with lastLoeNotifiedAt := some now }, [.todayForced watchedText])
    else (user, [])
  else if (prev.getD [] != watchedGroupsText) || isNotifiedYesterday || forceCheck then
    let user := { user with
      lastLoeWatchedText := some watchedText
      lastLoeNotifiedAt := some now }
    (user,
      [if forceCheck then .todayForced watchedText
       else if isNotifiedYesterday then .todayArrived watchedText
       else .todayChanged watchedText])
  else (user, [])

/-- The TOMORROW section of `checkOneChat` (`forceCheck` plays no role in
this section in the source). -/
def tomorrowPhase (user : UserState) (gs : List Str)
    (tomorrow : Option MenuItemView) (now : JsTime) : UserState × List Notif :=
  let user := { user with lastLoeTomorrowCheckedAt := some now, lastLoeTomorrowError := none }
  match tomorrow with
  | none => ({ user with lastLoeTomorrowStatus := some .missing }, [])
  | some tm =>
    let tomorrowHeaderLinesPrev := headerLinesOf (user.lastLoeTomorrowWatchedText.getD [])
    let tomorrowHeaderLinesCurrent := headerLinesOf tm.itemText
    let tomorrowPrevGroupsOnly : Option Str :=
      if truthyOptStr user.lastLoeTomorrowWatchedText then
        some (extractGroupLinesOnly (user.lastLoeTomorrowWatchedText.getD []))
      else none
    let appeared : Bool := user.lastLoeTomorrowStatus != some .present
    let user := { user with lastLoeTomorrowStatus := some .present }
    if !tomorrowHasAnyData gs tm then
      ({ user with lastLoeTomorrowWatchedText := some (tomorrowWatchedText gs tm) }, [])
    else if appeared then
      ({ user with
          lastLoeTomorrowWatchedText := some (tomorrowWatchedText gs tm)
          lastLoeTomorrowNotifiedAt := some now },
       [.tomorrowAppeared (tomorrowWatchedText gs tm)])
    else if optStrNeq tomorrowPrevGroupsOnly (tomorrowWatchedGroupsText gs tm) &&
             jsArrayNeq tomorrowHeaderLinesPrev tomorrowHeaderLinesCurrent then
      ({ user with
          lastLoeTomorrowWatchedText := some (tomorrowWatchedText gs tm)
          lastLoeTomorrowNotifiedAt := some now },
       [.tomorrowChanged (tomorrowWatchedText gs tm)])
    else (user, [])

/-- The no-groups early return of `checkOneChat`. -/
def noGroupsResult (user : UserState) (forceCheck : Bool) (now : JsTime) :
    UserState × List Notif :=
  let user := { user with lastLoeError := some msgNoGroups, lastLoeCheckedAt := some now }
  (user, if forceCheck then [.noGroupsReply msgNoGroups] else [])

/-- The catch handler of `checkOneChat`. -/
def catchResult (user : UserState) (e : Str) (forceCheck : Bool) (now : JsTime) :
    UserState × List Notif :=
  let user := { user with lastLoeCheckedAt := some now, lastLoeError := some e }
  (user, if forceCheck then [.errorReply e] else [])

/-- `checkOneChat` from the source, as a function of the subscriber state,
the `forceCheck` flag, the fetch outcome, and the current time (the
several `new Date()` calls within one check are identified). -/
def checkOneChat (user : UserState) (forceCheck : Bool)
    (fetch : Except Str FetchOk) (now : JsTime) : UserState × List Notif :=
  if !user.watching && !forceCheck then (user, [])
  else
    match user.groups with
    | none => noGroupsResult user forceCheck now
    | some [] => noGroupsResult user forceCheck now
    | some (g0 :: gs') =>
      let gs := g0 :: gs'
      match fetch with
      | .error e => catchResult user e forceCheck now
      | .ok r =>
        match r.today with
        | none => catchResult user msgNoToday forceCheck now
        | some td =>
          let tp := todayPhase user gs td forceCheck now
          let mp := tomorrowPhase tp.1 gs r.tomorrow now
          (mp.1, tp.2 ++ mp.2)

/-- `arr.filter((g, idx, arr) => arr.indexOf(g) === idx)`: keep only the
first occurrence of each element. -/
def jsDedup (arr : List Str) : List Str :=
  (arr.enum.filter (fun p => arr.indexOf p.2 = p.1)).map Prod.snd

/-- The add-groups mutation `[...current, ...toAdd].filter(dedup)`. -/
def addGroupsOp (current toAdd : List Str) : List Str :=
  jsDedup (current ++ toAdd)

/-- The remove-groups mutation `current.filter((g) => !toRemove.includes(g))`. -/
def removeGroupsOp (current toRemove : List Str) : List Str :=
  current.filter (fun g => !(toRemove.contains g))

/-- JSON values as produced by `JSON.parse`. -/
inductive JsVal where
  | jnull
  | jbool (b : Bool)
  | jnum (n : Int)
  | jstr (s : Str)
  | jarr (elems : List JsVal)
  | jobj (fields : List (Str × JsVal))

/-- `typeof v === 'object'` (true for objects, arrays and `null`). -/
def isObjType : JsVal → Bool
  | .jnull => true
  | .jarr _ => true
  | .jobj _ => true
  | _ => false

/-- `v === null`. -/
def isNullVal : JsVal → Bool
  | .jnull => true
  | _ => false

/-- Named-property read `v[key]`: defined on objects; the string keys used
by the state shape never exist on arrays or primitives.  With duplicate
keys the last one wins, as after `JSON.parse`. -/
def getProp : JsVal → Str → Option JsVal
  | .jobj fields, key => (fields.reverse.find? (fun p => p.1 == key)).map Prod.snd
  | _, _ => none

/-- `Object.entries(v)` for the values the users field can hold (arrays
enumerate their indices as string keys). -/
def entriesOf : JsVal → List (Str × JsVal)
  | .jobj fields => fields
  | .jarr elems => elems.enum.map (fun p => (natToStr p.1, p.2))
  | _ => []

/-- JavaScript truthiness of a possibly-undefined value. -/
def jsTruthy : Option JsVal → Bool
  | none => false
  | some .jnull => false
  | some (.jbool b) => b
  | some (.jnum n) => n != 0
  | some (.jstr s) => !s.isEmpty
  | some (.jarr _) => true
  | some (.jobj _) => true

/-- `typeof v === 'string' ? v : undefined` for a property read. -/
def strProp (u : JsVal) (key : Str) : Option Str :=
  match getProp u key with
  | some (.jstr s) => some s
  | _ => none

/-- The persisted per-chat record, exactly the `UserState` fields with
the ISO timestamps kept as the raw strings stored on disk. -/
structure UserStateDisk where
  groups : Option (List Str)
  pendingStep : Option PendingStep
  watching : Bool
  lastLoeCheckedAt : Option Str
  lastLoeNotifiedAt : Option Str
  lastLoeWatchedText : Option Str
  lastLoeError : Option Str
  lastLoeTomorrowCheckedAt : Option Str
  lastLoeTomorrowNotifiedAt : Option Str
  lastLoeTomorrowWatchedText : Option Str
  lastLoeTomorrowStatus : Option TomorrowStatus
  lastLoeTomorrowError : Option Str
deriving DecidableEq, Repr

/-- The persisted store: one record per chat id. -/
structure BotState where
  users : List (Str × UserStateDisk)
deriving DecidableEq, Repr

/-- The empty store `{ users: {} }`. -/
def emptyBotState : BotState := ⟨[]⟩

/-- Field coercion for one raw user entry, from the body of the
`normalizeStateShape` loop. -/
def normalizeUserShape (raw : JsVal) : UserStateDisk :=
  let u : JsVal := if jsTruthy (some raw) && isObjType raw then raw else .jobj []
  { groups :=
      match getProp u "groups".data with
      | some (.jarr es) =>
        some (es.filterMap (fun e => match e with | .jstr s => some s | _ => none))
      | _ => none
    pendingStep :=
      match getProp u "pendingStep".data with
      | some (.jstr s) =>
        if s = "groups".data then some .groups
        else if s = "groups_add".data then some .groups_add
        else if s = "groups_remove".data then some .groups_remove
        else none
      | _ => none
    watching := jsTruthy (getProp u "watching".data)
    lastLoeCheckedAt := strProp u "lastLoeCheckedAt".data
    lastLoeNotifiedAt := strProp u "lastLoeNotifiedAt".data
    lastLoeWatchedText := strProp u "lastLoeWatchedText".data
    lastLoeError := strProp u "lastLoeError".data
    lastLoeTomorrowCheckedAt := strProp u "lastLoeTomorrowCheckedAt".data
    lastLoeTomorrowNotifiedAt := strProp u "lastLoeTomorrowNotifiedAt".data
    lastLoeTomorrowWatchedText := strProp u "lastLoeTomorrowWatchedText".data
    lastLoeTomorrowStatus :=
      match getProp u "lastLoeTomorrowStatus".data with
      | some (.jstr s) =>
        if s = "missing".data then some .missing
        else if s = "present".data then some .present
        else none
      | _ => none
    lastLoeTomorrowError := strProp u "lastLoeTomorrowError".data }

/-- `normalizeStateShape` from the source: coerce an arbitrary parsed
value to a well-typed store, defaulting mistyped fields. -/
def normalizeStateShape (input : JsVal) : BotState :=
  let rawUsers : List (Str × JsVal) :=
    match getProp input "users".data with
    | some uv => if jsTruthy (some uv) && isObjType uv then entriesOf uv else []
    | none => []
  ⟨rawUsers.map (fun p => (p.1, normalizeUserShape p.2))⟩

/-- What reading the state file can yield: a missing file, another I/O
failure, or file content on which `JSON.parse` either throws (`none`) or
returns a value. -/
inductive DiskReadResult where
  | enoent
  | ioFailure
  | fileContent (parsed : Option JsVal)

/-- The shape test in `readStateFromDisk`: `typeof parsed === 'object' &&
parsed !== null && 'users' in parsed && typeof parsed.users === 'object'
&& parsed.users !== null`. -/
def stateShapeOk (v : JsVal) : Bool :=
  isObjType v && !isNullVal v &&
    (match getProp v "users".data with
     | some uv => isObjType uv && !isNullVal uv
     | none => false)

/-- `readStateFromDisk` from the source: any failure or shape mismatch
degrades to the empty store. -/
def readStateFromDisk : DiskReadResult → BotState
  | .enoent => emptyBotState
  | .ioFailure => emptyBotState
  | .fileContent none => emptyBotState
  | .fileContent (some v) =>
    if stateShapeOk v then normalizeStateShape v else emptyBotState

/-- Is this one of the three TODAY-section message sends? -/
def isTodayNotif : Notif → Bool
  | .todayForced _ => true
  | .todayArrived _ => true
  | .todayChanged _ => true
  | _ => false

/-- Is this one of the two TOMORROW-section message sends? -/
def isTomorrowNotif : Notif → Bool
  | .tomorrowAppeared _ => true
  | .tomorrowChanged _ => true
  | _ => false

/-- Is this the "tomorrow's schedule has appeared" message? -/
def isAppearedNotif : Notif → Bool
  | .tomorrowAppeared _ => true
  | _ => false

/-- Is this an error reply (no-groups message or `❌ Помилка:`)? -/
def isErrorNotif : Notif → Bool
  | .noGroupsReply _ => true
  | .errorReply _ => true
  | _ => false

/-- Example item text for "Today": two header lines, then the group 1.1
line. -/
def exTodayText : Str :=
  "Заголовок один\nЗаголовок два\nГрупа 1.1. Немає 05:30-09:00.".data

/-- Watched text a previous check would have stored for `exTodayText`. -/
def exStoredToday : Str :=
  "Заголовок один\nЗаголовок два\n\nГрупа 1.1. Немає 05:30-09:00.".data

/-- Stored tomorrow baseline: same header lines, earlier 1.1 interval. -/
def exStoredTomorrow : Str :=
  "Заголовок один\nЗаголовок два\n\nГрупа 1.1. Немає 10:00-12:00.".data

/-- Current tomorrow item text: same header lines as the stored baseline,
different 1.1 interval. -/
def exTomorrowText : Str :=
  "Заголовок один\nЗаголовок два\nГрупа 1.1. Немає 14:00-16:00.".data

/-- A check instant. -/
def exNow : JsTime := ⟨2025, 10, 5⟩

/-- Subscriber tracking group 1.1 with both baselines stored, tomorrow
already `present`, last notified at the current instant. -/
def exC1User : UserState :=
  { groups := some ["1.1".data]
    watching := true
    lastLoeWatchedText := some exStoredToday
    lastLoeNotifiedAt := some exNow
    lastLoeTomorrowWatchedText := some exStoredTomorrow
    lastLoeTomorrowStatus := some .present }

/-- Fetch outcome with both "Today" and "Tomorrow" present. -/
def exFetchBoth : Except Str FetchOk :=
  .ok ⟨some ⟨exTodayText, []⟩, some ⟨exTomorrowText, []⟩⟩

/-- Subscriber with a stored today baseline whose last notification was on
5 September 2025 — a different calendar day from `exNow` (5 October 2025)
but the same day of the month. -/
def exC2User : UserState :=
  { groups := some ["1.1".data]
    watching := true
    lastLoeWatchedText := some exStoredToday
    lastLoeNotifiedAt := some ⟨2025, 9, 5⟩ }

/-- Fetch outcome with "Today" present and "Tomorrow" absent. -/
def exFetchTodayOnly : Except Str FetchOk :=
  .ok ⟨some ⟨exTodayText, []⟩, none⟩

/-- Fresh watching subscriber tracking group 1.1: no baselines, no
tomorrow status. -/
def exC3User : UserState :=
  { groups := some ["1.1".data]
    watching := true }

/-- Like `exC2User` but last notified the previous day of the same month. -/
def exC2bUser : UserState :=
  { exC2User with lastLoeNotifiedAt := some ⟨2025, 10, 4⟩ }

/-- Watching subscriber whose tomorrow status is `missing`. -/
def exC5User : UserState :=
  { groups := some ["1.1".data]
    watching := true
    lastLoeTomorrowStatus := some .missing }

/-- Persisted JSON holding a user whose `groups` entry is the invalid id
`9.9`, twice, plus a non-string member. -/
def exBadStateVal : JsVal :=
  .jobj [("users".data,
    .jobj [("1".data,
      .jobj [("groups".data, .jarr [.jstr "9.9".data, .jstr "9.9".data, .jnum 5]),
             ("watching".data, .jbool true)])])]

/-- Lines that normalization leaves untouched: nonempty, free of
newlines, and with non-whitespace first and last characters. -/
def GoodLine (l : Str) : Prop :=
  l ≠ [] ∧ '\n' ∉ l ∧ (∀ c, l.head? = some c → isJsWs c = false) ∧
    (∀ c, l.reverse.head? = some c → isJsWs c = false)

/-- Executable check for `GoodLine`. -/
def goodLineB (l : Str) : Bool :=
  !l.isEmpty && !l.contains '\n' &&
    (match l.head? with | some c => !isJsWs c | none => true) &&
    (match l.reverse.head? with | some c => !isJsWs c | none => true)

/-- Events in an execution of the `runStateOp` serialization queue: unit
`i` starts running, or unit `i` settles (`ok` tells fulfilled from
rejected). -/
inductive QEvent where
  | start (i : Nat)
  | finish (i : Nat) (ok : Bool)
deriving DecidableEq, Repr

/-- Execution traces allowed by `runStateOp`, where unit `i` is the `i`-th
submission.  `stateOp.then(fn, fn)` runs a unit only once the previous
unit's wrapper has settled — with either outcome, because the tail promise
masks rejections via `next.then(() => undefined, () => undefined)` — and a
unit starts once and settles once, after it has started. -/
def ValidTrace (tr : List QEvent) : Prop :=
  (∀ p i, tr.get? p = some (.start i) → 1 ≤ i →
    ∃ q b, q < p ∧ tr.get? q = some (.finish (i - 1) b)) ∧
  (∀ p q i, tr.get? p = some (.start i) → tr.get? q = some (.start i) → p = q) ∧
  (∀ p i b, tr.get? p = some (.finish i b) → ∃ q, q < p ∧ tr.get? q = some (.start i)) ∧
  (∀ p q i b b', tr.get? p = some (.finish i b) → tr.get? q = some (.finish i b') → p = q)

/-- The canonical execution: units run back to back in submission order,
each settling with its own outcome (`outcomes` lists them, rejections
included). -/
def seqTraceFrom (k : Nat) : List Bool → List QEvent
  | [] => []
  | b :: bs => .start k :: .finish k b :: seqTraceFrom (k + 1) bs

/-- Canonical trace for a full submission list. -/
def seqTrace (outcomes : List Bool) : List QEvent := seqTraceFrom 0 outcomes

/-! ### Facts about the string helpers -/

theorem dropWs_eq_self {s : Str} (h : ∀ c, s.head? = some c → isJsWs c = false) :
    dropWs s = s := by
  cases s with
  | nil => rfl
  | cons c t =>
    have hc := h c rfl
    simp [dropWs, List.dropWhile_cons, hc]

theorem headOk_dropWs (s : Str) : ∀ c, (dropWs s).head? = some c → isJsWs c = false := by
  induction s with
  | nil => intro c hc; simp [dropWs] at hc
  | cons a t ih =>
    intro c hc
    by_cases hp : isJsWs a
    · simp only [dropWs, List.dropWhile_cons, hp, if_true] at hc
      exact ih c hc
    · have hp' : isJsWs a = false := Bool.eq_false_iff.mpr hp
      simp only [dropWs, List.dropWhile_cons, hp', Bool.false_eq_true, if_false,
        List.head?_cons, Option.some.injEq] at hc
      subst hc
      exact hp'

theorem mem_of_mem_dropWs {x : Char} {s : Str} (h : x ∈ dropWs s) : x ∈ s :=
  (List.dropWhile_sublist _).subset h

theorem exists_append_trimRight (s : Str) : ∃ t, trimRight s ++ t = s := by
  obtain ⟨t, ht⟩ := List.dropWhile_suffix (l := s.reverse) isJsWs
  refine ⟨t.reverse, ?_⟩
  have h1 : (t ++ List.dropWhile isJsWs s.reverse).reverse = s := by
    rw [ht, List.reverse_reverse]
  simp only [List.reverse_append] at h1
  simpa [trimRight, dropWs] using h1

theorem headOk_trimRight {s : Str} (h : ∀ c, s.head? = some c → isJsWs c = false) :
    ∀ c, (trimRight s).head? = some c → isJsWs c = false := by
  obtain ⟨t, ht⟩ := exists_append_trimRight s
  intro c hc
  apply h
  rw [← ht, List.head?_append, hc]
  rfl

theorem reverse_trimLine (s : Str) : (trimLine s).reverse = dropWs (dropWs s).reverse := by
  simp [trimLine, trimRight, trimLeft]

theorem headOk_reverse_trimLine (s : Str) :
    ∀ c, (trimLine s).reverse.head? = some c → isJsWs c = false := by
  rw [reverse_trimLine]
  exact headOk_dropWs _

theorem headOk_trimLine (s : Str) :
    ∀ c, (trimLine s).head? = some c → isJsWs c = false :=
  headOk_trimRight (headOk_dropWs s)

theorem trimLine_eq_self {s : Str}
    (h1 : ∀ c, s.head? = some c → isJsWs c = false)
    (h2 : ∀ c, s.reverse.head? = some c → isJsWs c = false) : trimLine s = s := by
  unfold trimLine trimLeft trimRight
  rw [dropWs_eq_self h1, dropWs_eq_self h2, List.reverse_reverse]

theorem mem_of_mem_trimLine {x : Char} {s : Str} (h : x ∈ trimLine s) : x ∈ s := by
  have h1 : x ∈ (trimLine s).reverse := List.mem_reverse.mpr h
  rw [reverse_trimLine] at h1
  have h2 := List.mem_reverse.mp (mem_of_mem_dropWs h1)
  exact mem_of_mem_dropWs h2

theorem trimLine_idem (s : Str) : trimLine (trimLine s) = trimLine s :=
  trimLine_eq_self (headOk_trimLine s) (headOk_reverse_trimLine s)

theorem splitNL_ne_nil (s : Str) : splitNL s ≠ [] := by
  cases s with
  | nil => simp [splitNL]
  | cons c t =>
    simp only [splitNL]
    split
    · simp
    · split <;> simp

theorem noNL_of_mem_splitNL {s l : Str} (h : l ∈ splitNL s) : '\n' ∉ l := by
  induction s generalizing l with
  | nil =>
    simp only [splitNL, List.mem_singleton] at h
    subst h
    simp
  | cons c t ih =>
    simp only [splitNL] at h
    by_cases hc : c = '\n'
    · rw [if_pos hc] at h
      rcases List.mem_cons.mp h with h | h
      · subst h; simp
      · exact ih h
    · rw [if_neg hc] at h
      rcases hsp : splitNL t with _ | ⟨l0, ls⟩
      · exact absurd hsp (splitNL_ne_nil t)
      · rw [hsp] at h
        have hl0 : l0 ∈ splitNL t := by rw [hsp]; exact List.mem_cons_self _ _
        rcases List.mem_cons.mp h with h | h
        · subst h
          intro hm
          rcases List.mem_cons.mp hm with hm | hm
          · exact hc hm.symm
          · exact ih hl0 hm
        · have : l ∈ splitNL t := by rw [hsp]; exact List.mem_cons_of_mem _ h
          exact ih this

theorem splitNL_of_noNL {l : Str} (h : '\n' ∉ l) : splitNL l = [l] := by
  induction l with
  | nil => rfl
  | cons c t ih =>
    have hc : c ≠ '\n' := fun he => h (he ▸ List.mem_cons_self _ _)
    have ht : '\n' ∉ t := fun hm => h (List.mem_cons_of_mem _ hm)
    simp only [splitNL, if_neg hc, ih ht]

theorem splitNL_append {l s : Str} (h : '\n' ∉ l) :
    splitNL (l ++ '\n' :: s) = l :: splitNL s := by
  induction l with
  | nil => simp [splitNL]
  | cons c t ih =>
    have hc : c ≠ '\n' := fun he => h (he ▸ List.mem_cons_self _ _)
    have ht : '\n' ∉ t := fun hm => h (List.mem_cons_of_mem _ hm)
    simp only [List.cons_append, splitNL, if_neg hc, List.append_eq]
    rw [ih ht]

theorem joinNL_cons {l : Str} {ls : List Str} (h : ls ≠ []) :
    joinNL (l :: ls) = l ++ '\n' :: joinNL ls := by
  cases ls with
  | nil => exact absurd rfl h
  | cons x xs => rfl

theorem splitNL_joinNL {L : List Str} (hne : L ≠ []) (h : ∀ l ∈ L, '\n' ∉ l) :
    splitNL (joinNL L) = L := by
  induction L with
  | nil => exact absurd rfl hne
  | cons l ls ih =>
    cases ls with
    | nil => exact splitNL_of_noNL (h l (List.mem_cons_self _ _))
    | cons x xs =>
      rw [joinNL_cons (by simp), splitNL_append (h l (List.mem_cons_self _ _))]
      rw [ih (by simp) (fun m hm => h m (List.mem_cons_of_mem _ hm))]

theorem replaceCRLF_cons {c : Char} {s : Str} (h : c ≠ '\r') :
    replaceCRLF (c :: s) = c :: replaceCRLF s := by
  cases s with
  | nil => rfl
  | cons d t =>
    have : ¬(c = '\r' ∧ d = '\n') := fun hcd => h hcd.1
    simp only [replaceCRLF, if_neg this]

theorem replaceCRLF_append {l s : Str} (h1 : '\n' ∉ l)
    (h2 : s.head? = some '\n' → ∀ c, l.reverse.head? = some c → c ≠ '\r') :
    replaceCRLF (l ++ s) = l ++ replaceCRLF s := by
  induction l with
  | nil => rfl
  | cons c t ih =>
    have hcn : c ≠ '\n' := fun he => h1 (he ▸ List.mem_cons_self _ _)
    have htn : '\n' ∉ t := fun hm => h1 (List.mem_cons_of_mem _ hm)
    cases t with
    | nil =>
      cases s with
      | nil => rfl
      | cons d u =>
        have hne : ¬(c = '\r' ∧ d = '\n') := by
          rintro ⟨hc, hd⟩
          exact h2 (by rw [hd]; rfl) c (by simp) hc
        simp only [List.cons_append, List.nil_append, replaceCRLF, if_neg hne]
    | cons c2 t' =>
      have hc2n : c2 ≠ '\n' := fun he => htn (he ▸ List.mem_cons_self _ _)
      have hne : ¬(c = '\r' ∧ c2 = '\n') := fun hcd => hc2n hcd.2
      have step : replaceCRLF (c :: c2 :: (t' ++ s)) = c :: replaceCRLF (c2 :: t' ++ s) := by
        simp only [replaceCRLF, if_neg hne]
        rfl
      have hrev : ∀ x, (c2 :: t').reverse.head? = some x → (c :: c2 :: t').reverse.head? = some x := by
        intro x hx
        have hnn : (c2 :: t').reverse ≠ [] := by simp
        rw [List.reverse_cons]
        cases hrv : (c2 :: t').reverse with
        | nil => exact absurd hrv hnn
        | cons y ys =>
          rw [hrv] at hx
          simpa using hx
      have ih' := ih htn (fun hs x hx => h2 hs x (hrev x hx))
      calc replaceCRLF (c :: c2 :: t' ++ s) = c :: replaceCRLF (c2 :: t' ++ s) := by
              simpa using step
        _ = c :: (c2 :: t' ++ replaceCRLF s) := by rw [ih']
        _ = (c :: c2 :: t') ++ replaceCRLF s := rfl

theorem replaceCRLF_joinNL {L : List Str}
    (h : ∀ l ∈ L, '\n' ∉ l ∧ ∀ c, l.reverse.head? = some c → isJsWs c = false) :
    replaceCRLF (joinNL L) = joinNL L := by
  induction L with
  | nil => rfl
  | cons l ls ih =>
    have hl := h l (List.mem_cons_self _ _)
    have hsafe : ∀ (s : Str), (∀ c, l.reverse.head? = some c → isJsWs c = false) →
        replaceCRLF (l ++ s) = l ++ replaceCRLF s := by
      intro s hok
      refine replaceCRLF_append hl.1 (fun _ c hc hcr => ?_)
      have := hok c hc
      rw [hcr] at this
      simp [isJsWs] at this
    cases ls with
    | nil =>
      have : replaceCRLF (l ++ []) = l ++ replaceCRLF [] := hsafe [] hl.2
      simpa [joinNL, replaceCRLF] using this
    | cons x xs =>
      rw [joinNL_cons (by simp)]
      rw [hsafe ('\n' :: joinNL (x :: xs)) hl.2]
      rw [replaceCRLF_cons (by decide)]
      rw [ih (fun m hm => h m (List.mem_cons_of_mem _ hm))]

theorem head?_joinNL_cons {l : Str} {ls : List Str} (h : l ≠ []) :
    (joinNL (l :: ls)).head? = l.head? := by
  cases ls with
  | nil => rfl
  | cons x xs =>
    rw [joinNL_cons (by simp), List.head?_append]
    cases l with
    | nil => exact absurd rfl h
    | cons c t => rfl

theorem joinNL_append_single {M : List Str} {x : Str} (h : M ≠ []) :
    joinNL (M ++ [x]) = joinNL M ++ '\n' :: x := by
  induction M with
  | nil => exact absurd rfl h
  | cons l ls ih =>
    cases ls with
    | nil => rfl
    | cons y ys =>
      rw [List.cons_append, joinNL_cons (by simp), joinNL_cons (by simp), ih (by simp)]
      simp

theorem reverse_joinNL (L : List Str) :
    (joinNL L).reverse = joinNL ((L.map List.reverse).reverse) := by
  induction L with
  | nil => rfl
  | cons l ls ih =>
    cases ls with
    | nil => rfl
    | cons x xs =>
      have hM : (List.map List.reverse (x :: xs)).reverse ≠ [] := by simp
      calc (joinNL (l :: x :: xs)).reverse
          = (l ++ '\n' :: joinNL (x :: xs)).reverse := by rw [joinNL_cons (by simp)]
        _ = (joinNL (x :: xs)).reverse ++ '\n' :: l.reverse := by simp
        _ = joinNL ((List.map List.reverse (x :: xs)).reverse) ++ '\n' :: l.reverse := by
              rw [ih]
        _ = joinNL ((List.map List.reverse (x :: xs)).reverse ++ [l.reverse]) := by
              rw [joinNL_append_single hM]
        _ = joinNL ((List.map List.reverse (l :: x :: xs)).reverse) := by simp

theorem lastOk_joinNL {M : List Str} {x : Str} (hx : x ≠ [])
    (h : ∀ c, x.reverse.head? = some c → isJsWs c = false) :
    ∀ c, (joinNL (M ++ [x])).reverse.head? = some c → isJsWs c = false := by
  intro c hc
  rw [reverse_joinNL] at hc
  rw [List.map_append, List.reverse_append] at hc
  simp only [List.map_cons, List.map_nil, List.reverse_cons, List.reverse_nil,
    List.nil_append, List.cons_append] at hc
  rw [head?_joinNL_cons (by simpa using hx)] at hc
  exact h c hc

theorem goodLine_of_mem_normalizedLines {raw l : Str} (h : l ∈ normalizedLines raw) :
    GoodLine l := by
  simp only [normalizedLines, List.mem_filter, List.mem_map] at h
  obtain ⟨⟨l0, hl0, rfl⟩, hne⟩ := h
  refine ⟨of_decide_eq_true hne, ?_, headOk_trimLine l0, headOk_reverse_trimLine l0⟩
  intro hm
  exact noNL_of_mem_splitNL hl0 (mem_of_mem_trimLine hm)

theorem map_trimLine_id {L : List Str}
    (h : ∀ l ∈ L, (∀ c, l.head? = some c → isJsWs c = false) ∧
      (∀ c, l.reverse.head? = some c → isJsWs c = false)) :
    L.map trimLine = L := by
  have h1 : L.map trimLine = L.map id :=
    List.map_congr_left (fun l hl => trimLine_eq_self (h l hl).1 (h l hl).2)
  simpa using h1

theorem filter_ne_nil_id {L : List Str} (h : ∀ l ∈ L, l ≠ []) :
    L.filter (fun l => l ≠ []) = L :=
  List.filter_eq_self.mpr (fun a ha => decide_eq_true (h a ha))

theorem normalizedLines_joinNL {L : List Str} (hne : L ≠ [])
    (hG : ∀ l ∈ L, GoodLine l ∨ l = []) :
    normalizedLines (joinNL L) = L.filter (fun l => l ≠ []) := by
  have hnl : ∀ l ∈ L, '\n' ∉ l := by
    intro l hl
    rcases hG l hl with hg | rfl
    · exact hg.2.1
    · simp
  have hlast : ∀ l ∈ L, '\n' ∉ l ∧ ∀ c, l.reverse.head? = some c → isJsWs c = false := by
    intro l hl
    refine ⟨hnl l hl, ?_⟩
    rcases hG l hl with hg | rfl
    · exact hg.2.2.2
    · intro c hc; simp at hc
  have htrim : ∀ l ∈ L, (∀ c, l.head? = some c → isJsWs c = false) ∧
      (∀ c, l.reverse.head? = some c → isJsWs c = false) := by
    intro l hl
    rcases hG l hl with hg | rfl
    · exact ⟨hg.2.2.1, hg.2.2.2⟩
    · exact ⟨fun c hc => by simp at hc, fun c hc => by simp at hc⟩
  unfold normalizedLines
  rw [replaceCRLF_joinNL hlast, splitNL_joinNL hne hnl, map_trimLine_id htrim]

theorem trimLine_joinNL_good {L : List Str} (hne : L ≠ [])
    (hG : ∀ l ∈ L, GoodLine l) : trimLine (joinNL L) = joinNL L := by
  apply trimLine_eq_self
  · cases L with
    | nil => exact absurd rfl hne
    | cons l ls =>
      intro c hc
      rw [head?_joinNL_cons (hG l (List.mem_cons_self _ _)).1] at hc
      exact (hG l (List.mem_cons_self _ _)).2.2.1 c hc
  · have hx := List.getLast_mem hne
    have hdec := List.dropLast_append_getLast hne
    intro c hc
    rw [← hdec] at hc
    exact lastOk_joinNL (hG _ hx).1 (hG _ hx).2.2.2 c hc

theorem normalizeMultilineText_joinNL {L : List Str} (hne : L ≠ [])
    (hG : ∀ l ∈ L, GoodLine l) :
    normalizeMultilineText (joinNL L) = joinNL L := by
  unfold normalizeMultilineText
  rw [normalizedLines_joinNL hne (fun l hl => Or.inl (hG l hl)),
    filter_ne_nil_id (fun l hl => (hG l hl).1), trimLine_joinNL_good hne hG]

/-- C8: the multiline text normalizer is idempotent. -/
theorem normalizeMultilineText_idempotent (raw : Str) :
    normalizeMultilineText (normalizeMultilineText raw) = normalizeMultilineText raw := by
  rcases hL : normalizedLines raw with _ | ⟨l, ls⟩
  · have h1 : normalizeMultilineText raw = [] := by
      rw [normalizeMultilineText, hL]; rfl
    rw [h1]; rfl
  · have hG : ∀ m ∈ normalizedLines raw, GoodLine m :=
      fun m hm => goodLine_of_mem_normalizedLines hm
    rw [hL] at hG
    have h1 : normalizeMultilineText raw = joinNL (l :: ls) := by
      rw [normalizeMultilineText, hL, trimLine_joinNL_good (by simp) hG]
    rw [h1]
    exact normalizeMultilineText_joinNL (by simp) hG

theorem headOk_joinNL_of_first {L : List Str} {l : Str} (hL : L.head? = some l)
    (hl : l ≠ []) (h : ∀ c, l.head? = some c → isJsWs c = false) :
    ∀ c, (joinNL L).head? = some c → isJsWs c = false := by
  cases L with
  | nil => simp at hL
  | cons a as =>
    intro c hc
    simp only [List.head?_cons, Option.some.injEq] at hL
    subst hL
    rw [head?_joinNL_cons hl] at hc
    exact h c hc

theorem lastOk_joinNL_of_last {L : List Str} {x : Str} (hL : L.getLast? = some x)
    (hx : x ≠ []) (h : ∀ c, x.reverse.head? = some c → isJsWs c = false) :
    ∀ c, (joinNL L).reverse.head? = some c → isJsWs c = false := by
  have hne : L ≠ [] := by rintro rfl; simp at hL
  have hdec : L.dropLast ++ [L.getLast hne] = L := List.dropLast_append_getLast hne
  have hxx : L.getLast hne = x := by
    have h2 := List.getLast?_eq_getLast L hne
    rw [h2] at hL
    exact Option.some.inj hL
  rw [hxx] at hdec
  intro c hc
  rw [← hdec] at hc
  exact lastOk_joinNL hx h c hc

theorem trimLine_joinNL_of_ends {L : List Str} {l x : Str}
    (hfirst : L.head? = some l) (hlast : L.getLast? = some x)
    (hGl : GoodLine l) (hGx : GoodLine x) : trimLine (joinNL L) = joinNL L :=
  trimLine_eq_self (headOk_joinNL_of_first hfirst hGl.1 hGl.2.2.1)
    (lastOk_joinNL_of_last hlast hGx.1 hGx.2.2.2)

theorem goodLine_of_goodLineB {l : Str} (h : goodLineB l = true) : GoodLine l := by
  unfold goodLineB at h
  simp only [Bool.and_eq_true] at h
  obtain ⟨⟨⟨h1, h2⟩, h3⟩, h4⟩ := h
  refine ⟨?_, ?_, ?_, ?_⟩
  · intro he
    subst he
    simp at h1
  · intro hm
    have hcon : l.contains '\n' = true := by
      unfold List.contains
      exact List.elem_iff.mpr hm
    rw [hcon] at h2
    simp at h2
  · intro c hc
    rw [hc, Bool.not_eq_true'] at h3
    exact h3
  · intro c hc
    rw [hc, Bool.not_eq_true'] at h4
    exact h4

/-- C6 (amended): the previous-subgroup-text extraction applied to a
stored watched text (header lines, a blank separator, rendered subgroup
lines) returns exactly the lines that match the subgroup-line pattern:
header lines (which do not match) are excluded, while placeholder lines
do match the pattern and are therefore kept, not excluded. -/
theorem extractGroupLinesOnly_watchedTextOf {headers selected : List Str}
    (hh : headers ≠ []) (hs : selected ≠ [])
    (hGh : ∀ l ∈ headers, GoodLine l ∧ isGroupLine l = false)
    (hGs : ∀ l ∈ selected, GoodLine l ∧ isGroupLine l = true) :
    extractGroupLinesOnly (watchedTextOf headers selected) = joinNL selected := by
  obtain ⟨h0, htl, rfl⟩ : ∃ h0 htl, headers = h0 :: htl := by
    cases headers with
    | nil => exact absurd rfl hh
    | cons a b => exact ⟨a, b, rfl⟩
  have hxlast : selected.getLast? = some (selected.getLast hs) :=
    List.getLast?_eq_getLast selected hs
  have hxmem : selected.getLast hs ∈ selected := List.getLast_mem hs
  have hG0 := hGh h0 (List.mem_cons_self _ _)
  have hGx := hGs _ hxmem
  have hMne : (h0 :: htl) ++ [[]] ++ selected ≠ [] := by simp
  have hGmix : ∀ l ∈ (h0 :: htl) ++ [[]] ++ selected, GoodLine l ∨ l = [] := by
    intro l hl
    rcases List.mem_append.mp hl with hl | hl
    · rcases List.mem_append.mp hl with hl | hl
      · exact Or.inl (hGh l hl).1
      · simp at hl; exact Or.inr hl
    · exact Or.inl (hGs l hl).1
  have hMhead : ((h0 :: htl) ++ [[]] ++ selected).head? = some h0 := rfl
  have hMlast : ((h0 :: htl) ++ [[]] ++ selected).getLast? = some (selected.getLast hs) := by
    rw [List.getLast?_append, List.getLast?_append, hxlast]
    rfl
  have hstep1 : watchedTextOf (h0 :: htl) selected = joinNL ((h0 :: htl) ++ [[]] ++ selected) := by
    unfold watchedTextOf
    exact trimLine_joinNL_of_ends hMhead hMlast hG0.1 hGx.1
  have hfilterM : ((h0 :: htl) ++ [[]] ++ selected).filter (fun l => l ≠ []) =
      (h0 :: htl) ++ selected := by
    rw [List.filter_append, List.filter_append]
    rw [filter_ne_nil_id (fun l hl => (hGh l hl).1.1),
      filter_ne_nil_id (fun l hl => (hGs l hl).1.1)]
    simp
  have hHSne : (h0 :: htl) ++ selected ≠ [] := by simp
  have hHShead : ((h0 :: htl) ++ selected).head? = some h0 := rfl
  have hHSlast : ((h0 :: htl) ++ selected).getLast? = some (selected.getLast hs) := by
    rw [List.getLast?_append, hxlast]
    rfl
  have hstep2 : normalizeMultilineText (joinNL ((h0 :: htl) ++ [[]] ++ selected)) =
      joinNL ((h0 :: htl) ++ selected) := by
    unfold normalizeMultilineText
    rw [normalizedLines_joinNL hMne hGmix, hfilterM]
    exact trimLine_joinNL_of_ends hHShead hHSlast hG0.1 hGx.1
  have hnoNL : ∀ l ∈ (h0 :: htl) ++ selected, '\n' ∉ l := by
    intro l hl
    rcases List.mem_append.mp hl with hl | hl
    · exact (hGh l hl).1.2.1
    · exact (hGs l hl).1.2.1
  have hstep3 : splitNL (joinNL ((h0 :: htl) ++ selected)) = (h0 :: htl) ++ selected :=
    splitNL_joinNL hHSne hnoNL
  have hstep4 : ((h0 :: htl) ++ selected).filter isGroupLine = selected := by
    rw [List.filter_append]
    rw [List.filter_eq_nil_iff.mpr (fun l hl => by rw [(hGh l hl).2]; exact Bool.false_ne_true),
      List.filter_eq_self.mpr (fun l hl => (hGs l hl).2)]
    rfl
  unfold extractGroupLinesOnly
  rw [hstep1, hstep2, hstep3, hstep4]
  exact trimLine_joinNL_good hs (fun l hl => (hGs l hl).1)

/-- C6 witness: the extraction applied to a concrete stored watched text
with two header lines and one subgroup line. -/
theorem extractGroupLinesOnly_watchedTextOf_witness :
    extractGroupLinesOnly (watchedTextOf
      ["Заголовок один".data, "Заголовок два".data]
      ["Група 1.1. Немає 05:30-09:00.".data]) =
    joinNL ["Група 1.1. Немає 05:30-09:00.".data] := by
  apply extractGroupLinesOnly_watchedTextOf
  · decide
  · decide
  · intro l hl
    rcases List.mem_cons.mp hl with rfl | hl
    · exact ⟨goodLine_of_goodLineB (by decide), by decide⟩
    · rcases List.mem_cons.mp hl with rfl | hl
      · exact ⟨goodLine_of_goodLineB (by decide), by decide⟩
      · simp at hl
  · intro l hl
    rcases List.mem_cons.mp hl with rfl | hl
    · exact ⟨goodLine_of_goodLineB (by decide), by decide⟩
    · simp at hl

/-- C6 counterexample: on a stored watched text whose rendered subgroup
part is a single placeholder line, the extraction returns the placeholder
line rather than excluding it. -/
theorem extractGroupLinesOnly_keeps_placeholder :
    extractGroupLinesOnly (watchedTextOf ["Заголовок".data] [placeholderToday "1.1".data]) =
      placeholderToday "1.1".data ∧ placeholderToday "1.1".data ≠ [] := by
  constructor
  · decide
  · decide

/-! ### Facts about subgroup-id parsing -/

theorem isJsWs_eq_false_of_isDigitC {c : Char} (h : isDigitC c = true) :
    isJsWs c = false := by
  cases hw : isJsWs c
  · rfl
  · exfalso
    simp only [isJsWs, Bool.or_eq_true, beq_iff_eq] at hw
    rcases hw with ((((h1 | h1) | h1) | h1) | h1) | h1 <;>
      (subst h1; exact absurd h (by decide))

theorem takeWhile_append_all {p : Char → Bool} {l s : Str}
    (hl : ∀ x ∈ l, p x = true) : (l ++ s).takeWhile p = l ++ s.takeWhile p := by
  induction l with
  | nil => rfl
  | cons a t ih =>
    rw [List.cons_append, List.takeWhile_cons, hl a (List.mem_cons_self _ _)]
    simp only [if_true, List.cons_append]
    rw [ih (fun x hx => hl x (List.mem_cons_of_mem _ hx))]

theorem dropWhile_append_all {p : Char → Bool} {l s : Str}
    (hl : ∀ x ∈ l, p x = true) : (l ++ s).dropWhile p = s.dropWhile p := by
  induction l with
  | nil => rfl
  | cons a t ih =>
    rw [List.cons_append, List.dropWhile_cons, hl a (List.mem_cons_self _ _)]
    simp only [if_true]
    exact ih (fun x hx => hl x (List.mem_cons_of_mem _ hx))

theorem takeWhile_all {p : Char → Bool} {l : Str} (hl : ∀ x ∈ l, p x = true) :
    l.takeWhile p = l := by
  have h := takeWhile_append_all (s := ([] : Str)) hl
  simpa using h

theorem dropWhile_all {p : Char → Bool} {l : Str} (hl : ∀ x ∈ l, p x = true) :
    l.dropWhile p = [] := by
  have h := dropWhile_append_all (s := ([] : Str)) hl
  simpa using h

theorem scanGroupTokens_single {a0 b0 : Char} {a' b' : Str} {sep : Char}
    (hda : ∀ c ∈ a0 :: a', isDigitC c = true)
    (hdb : ∀ c ∈ b0 :: b', isDigitC c = true)
    (hsep : sep = '.' ∨ sep = ',') :
    scanGroupTokens ((a0 :: a') ++ sep :: b0 :: b') = [(a0 :: a', b0 :: b')] := by
  have hsepd : isDigitC sep = false := by rcases hsep with rfl | rfl <;> decide
  have hta : (a' ++ sep :: b0 :: b').takeWhile isDigitC = a' := by
    rw [takeWhile_append_all (fun x hx => hda x (List.mem_cons_of_mem _ hx)),
      List.takeWhile_cons, hsepd]
    simp
  have hdra : (a' ++ sep :: b0 :: b').dropWhile isDigitC = sep :: b0 :: b' := by
    rw [dropWhile_append_all (fun x hx => hda x (List.mem_cons_of_mem _ hx)),
      List.dropWhile_cons, hsepd]
    simp
  have htb : b'.takeWhile isDigitC = b' :=
    takeWhile_all (fun x hx => hdb x (List.mem_cons_of_mem _ hx))
  have hdb' : b'.dropWhile isDigitC = [] :=
    dropWhile_all (fun x hx => hdb x (List.mem_cons_of_mem _ hx))
  rw [scanGroupTokens.eq_def]
  simp only [List.cons_append, hda a0 (List.mem_cons_self _ _), if_true, hta, hdra]
  split
  · rename_i h
    rw [hdra] at h
    exact absurd h (by simp)
  · rename_i s r2 h
    rw [hdra] at h
    injection h with h1 h2
    subst h1
    subst h2
    rw [if_pos hsep]
    split
    · rename_i h3 h4 heq2 hheq2
      exact absurd heq2 (by simp)
    · rename_i d2 r4 h3 h4 heq2 hheq2
      injection heq2 with e3 e4
      subst e3
      subst e4
      rw [if_pos (hdb b0 (List.mem_cons_self _ _)), htb, hdb']
      rw [show scanGroupTokens [] = [] from by rw [scanGroupTokens.eq_def]]

theorem trimLine_all_digits_sep {a b : Str} {sep : Char}
    (ha : a ≠ []) (hda : ∀ c ∈ a, isDigitC c = true)
    (hb : b ≠ []) (hdb : ∀ c ∈ b, isDigitC c = true)
    (hsep : sep = '.' ∨ sep = ',') :
    trimLine (a ++ sep :: b) = a ++ sep :: b := by
  apply trimLine_eq_self
  · intro c hc
    cases a with
    | nil => exact absurd rfl ha
    | cons a0 a' =>
      simp only [List.cons_append, List.head?_cons, Option.some.injEq] at hc
      subst hc
      exact isJsWs_eq_false_of_isDigitC (hda a0 (List.mem_cons_self _ _))
  · intro c hc
    rw [List.head?_reverse] at hc
    rw [List.getLast?_append] at hc
    have hbl : b.getLast? = some (b.getLast hb) := List.getLast?_eq_getLast b hb
    rw [show (sep :: b).getLast? = b.getLast? from by
      cases b with
      | nil => exact absurd rfl hb
      | cons x xs => simp] at hc
    rw [hbl] at hc
    rw [show (Option.or (some (b.getLast hb)) a.getLast?) = some (b.getLast hb) from rfl] at hc
    have hcc : c = b.getLast hb := (Option.some.inj hc).symm
    subst hcc
    exact isJsWs_eq_false_of_isDigitC (hdb _ (List.getLast_mem hb))

theorem normalizeGroupId_digits {a b : Str}
    (ha : a ≠ []) (hda : ∀ c ∈ a, isDigitC c = true)
    (hb : b ≠ []) (hdb : ∀ c ∈ b, isDigitC c = true) :
    normalizeGroupId (a ++ '.' :: b) =
      some (natToStr (natOfDigits a) ++ '.' :: natToStr (natOfDigits b)) := by
  obtain ⟨a0, a', rfl⟩ : ∃ a0 a', a = a0 :: a' := by
    cases a with
    | nil => exact absurd rfl ha
    | cons x xs => exact ⟨x, xs, rfl⟩
  obtain ⟨b0, b', rfl⟩ : ∃ b0 b', b = b0 :: b' := by
    cases b with
    | nil => exact absurd rfl hb
    | cons x xs => exact ⟨x, xs, rfl⟩
  have htrim := trimLine_all_digits_sep ha hda hb hdb (Or.inl rfl)
  unfold normalizeGroupId
  simp only [htrim]
  rw [if_neg (by simp)]
  have hdot : isDigitC '.' = false := by decide
  have hta : (a' ++ '.' :: b0 :: b').takeWhile isDigitC = a' := by
    rw [takeWhile_append_all (fun x hx => hda x (List.mem_cons_of_mem _ hx)),
      List.takeWhile_cons, hdot]
    simp
  have hdra : (a' ++ '.' :: b0 :: b').dropWhile isDigitC = '.' :: b0 :: b' := by
    rw [dropWhile_append_all (fun x hx => hda x (List.mem_cons_of_mem _ hx)),
      List.dropWhile_cons, hdot]
    simp
  have htb : b'.takeWhile isDigitC = b' :=
    takeWhile_all (fun x hx => hdb x (List.mem_cons_of_mem _ hx))
  have hdb' : b'.dropWhile isDigitC = [] :=
    dropWhile_all (fun x hx => hdb x (List.mem_cons_of_mem _ hx))
  simp only [takeDigits1, List.cons_append, hda a0 (List.mem_cons_self _ _), if_true,
    hta, hdra, dropSep]
  simp only [true_or, if_true, hdb b0 (List.mem_cons_self _ _), htb, hdb']

/-- C10: a token `<digits><'.' or ','><digits>` whose numeric values form
a valid subgroup id parses to exactly that canonical dotted id, with
leading zeros stripped by the numeric conversion. -/
theorem parseGroupsFromUserInput_zero_padded (a b : Str) (sep : Char)
    (ha : a ≠ []) (hda : ∀ c ∈ a, isDigitC c = true)
    (hb : b ≠ []) (hdb : ∀ c ∈ b, isDigitC c = true)
    (hsep : sep = '.' ∨ sep = ',')
    (hval : natToStr (natOfDigits a) ++ '.' :: natToStr (natOfDigits b) ∈ POSSIBLE_GROUPS) :
    parseGroupsFromUserInput (a ++ sep :: b) =
      [natToStr (natOfDigits a) ++ '.' :: natToStr (natOfDigits b)] := by
  obtain ⟨a0, a', rfl⟩ : ∃ a0 a', a = a0 :: a' := by
    cases a with
    | nil => exact absurd rfl ha
    | cons x xs => exact ⟨x, xs, rfl⟩
  obtain ⟨b0, b', rfl⟩ : ∃ b0 b', b = b0 :: b' := by
    cases b with
    | nil => exact absurd rfl hb
    | cons x xs => exact ⟨x, xs, rfl⟩
  unfold parseGroupsFromUserInput
  rw [scanGroupTokens_single hda hdb hsep]
  simp only [List.foldl_cons, List.foldl_nil]
  rw [normalizeGroupId_digits ha hda hb hdb]
  simp [hval]

/-- C10 witness: the zero-padded token `01,1` parses to `1.1`. -/
theorem parseGroupsFromUserInput_zero_padded_witness :
    parseGroupsFromUserInput "01,1".data = ["1.1".data] := by
  have h := parseGroupsFromUserInput_zero_padded "01".data "1".data ','
    (by decide) (by decide) (by decide) (by decide) (Or.inr rfl) (by decide)
  exact h.trans (by decide)

/-! ### Facts about the group-list mutations (C4) -/

theorem parseGroupsFromUserInput_nodup (raw : Str) :
    (parseGroupsFromUserInput raw).Nodup := by
  unfold parseGroupsFromUserInput
  apply List.Nodup.filter
  have key : ∀ (toks : List (Str × Str)) (acc : List Str), acc.Nodup →
      (toks.foldl (fun out ab =>
        match normalizeGroupId (ab.1 ++ '.' :: ab.2) with
        | some g => if g ∈ out then out else out ++ [g]
        | none => out) acc).Nodup := by
    intro toks
    induction toks with
    | nil => intro acc h; exact h
    | cons t ts ih =>
      intro acc h
      simp only [List.foldl_cons]
      apply ih
      cases hng : normalizeGroupId (t.1 ++ '.' :: t.2) with
      | none => exact h
      | some g =>
        show (if g ∈ acc then acc else acc ++ [g]).Nodup
        by_cases hg : g ∈ acc
        · rw [if_pos hg]; exact h
        · rw [if_neg hg]
          simp [List.nodup_append, h, hg]
  exact key _ [] List.nodup_nil

theorem parseGroupsFromUserInput_valid {raw g : Str}
    (h : g ∈ parseGroupsFromUserInput raw) : g ∈ POSSIBLE_GROUPS := by
  unfold parseGroupsFromUserInput at h
  exact of_decide_eq_true (List.mem_filter.mp h).2

theorem jsDedup_nodup (arr : List Str) : (jsDedup arr).Nodup := by
  unfold jsDedup
  have henum : arr.enum.Nodup :=
    List.Nodup.of_map Prod.fst (List.nodup_enum_map_fst arr)
  apply List.Nodup.map_on ?_ (henum.filter _)
  intro p hp q hq hpq
  have hp2 := of_decide_eq_true (List.mem_filter.mp hp).2
  have hq2 := of_decide_eq_true (List.mem_filter.mp hq).2
  have h1 : p.1 = q.1 := by rw [← hp2, ← hq2, hpq]
  exact Prod.ext h1 hpq

theorem jsDedup_subset {arr : List Str} {g : Str} (h : g ∈ jsDedup arr) : g ∈ arr := by
  unfold jsDedup at h
  obtain ⟨p, hp, rfl⟩ := List.mem_map.mp h
  have hp1 := (List.mem_filter.mp hp).1
  have hge := List.mem_enum_iff_getElem?.mp hp1
  exact List.getElem?_mem hge

/-- C4 (amended): the group-set mutations driven by user input do keep
the invariant — `parseGroupsFromUserInput` output is duplicate-free and
drawn from the 12 valid ids, and the add/remove mutations preserve
validity (add deduplicates unconditionally; remove preserves
duplicate-freeness) — but `normalizeStateShape`, used when loading
persisted state, keeps any string entries as they are, so the invariant
is not re-established on load. -/
theorem groups_invariant_user_ops :
    (∀ raw : Str, (parseGroupsFromUserInput raw).Nodup ∧
      ∀ g ∈ parseGroupsFromUserInput raw, g ∈ POSSIBLE_GROUPS) ∧
    (∀ current toAdd : List Str,
      (addGroupsOp current toAdd).Nodup ∧
      (∀ g ∈ addGroupsOp current toAdd, g ∈ current ∨ g ∈ toAdd)) ∧
    (∀ current toRemove : List Str, current.Nodup →
      (removeGroupsOp current toRemove).Nodup ∧
      ∀ g ∈ removeGroupsOp current toRemove, g ∈ current) := by
  refine ⟨fun raw => ⟨parseGroupsFromUserInput_nodup raw,
      fun g hg => parseGroupsFromUserInput_valid hg⟩, ?_, ?_⟩
  · intro current toAdd
    refine ⟨jsDedup_nodup _, fun g hg => ?_⟩
    exact List.mem_append.mp (jsDedup_subset hg)
  · intro current toRemove hnd
    exact ⟨hnd.filter _, fun g hg => (List.mem_filter.mp hg).1⟩

/-- C4 witness: the user-driven mutations at concrete inputs. -/
theorem groups_invariant_user_ops_witness :
    (parseGroupsFromUserInput "1,1; 3.2".data).Nodup ∧
    (removeGroupsOp ["1.1".data, "3.2".data] ["1.1".data]).Nodup := by
  constructor
  · exact (groups_invariant_user_ops.1 "1,1; 3.2".data).1
  · exact (groups_invariant_user_ops.2.2 ["1.1".data, "3.2".data] ["1.1".data]
      (by decide)).1

/-- C4 counterexample: loading a persisted state whose stored groups list
is `["9.9", "9.9", 5]` yields the groups list `["9.9", "9.9"]` — an
invalid id, stored twice — so the claimed invariant does not survive
`normalizeStateShape`. -/
theorem normalizeStateShape_keeps_invalid_groups :
    ((normalizeStateShape exBadStateVal).users.map (fun p => p.2.groups)) =
      [some ["9.9".data, "9.9".data]] ∧
    "9.9".data ∉ POSSIBLE_GROUPS ∧
    ¬ (["9.9".data, "9.9".data] : List Str).Nodup := by
  refine ⟨by decide, by decide, by decide⟩

/-! ### Characterisations of the check phases -/

theorem tomorrowPhase_today_inv (u : UserState) (gs : List Str)
    (tom : Option MenuItemView) (now : JsTime) :
    (tomorrowPhase u gs tom now).1.lastLoeWatchedText = u.lastLoeWatchedText ∧
    (tomorrowPhase u gs tom now).1.lastLoeNotifiedAt = u.lastLoeNotifiedAt ∧
    (tomorrowPhase u gs tom now).1.lastLoeCheckedAt = u.lastLoeCheckedAt ∧
    (tomorrowPhase u gs tom now).1.lastLoeError = u.lastLoeError ∧
    ∀ n ∈ (tomorrowPhase u gs tom now).2,
      isTodayNotif n = false ∧ isErrorNotif n = false := by
  unfold tomorrowPhase
  cases tom with
  | none => simp
  | some tm =>
    dsimp only
    split_ifs <;> simp [isTodayNotif, isErrorNotif]

theorem todayPhase_tomorrow_inv (u : UserState) (gs : List Str) (td : MenuItemView)
    (f : Bool) (now : JsTime) :
    (todayPhase u gs td f now).1.lastLoeTomorrowStatus = u.lastLoeTomorrowStatus ∧
    (todayPhase u gs td f now).1.lastLoeTomorrowWatchedText = u.lastLoeTomorrowWatchedText ∧
    (todayPhase u gs td f now).1.lastLoeTomorrowError = u.lastLoeTomorrowError ∧
    (todayPhase u gs td f now).1.lastLoeTomorrowNotifiedAt = u.lastLoeTomorrowNotifiedAt ∧
    ∀ n ∈ (todayPhase u gs td f now).2,
      isTomorrowNotif n = false ∧ isAppearedNotif n = false ∧ isErrorNotif n = false := by
  unfold todayPhase
  dsimp only
  split_ifs <;> simp [isTomorrowNotif, isAppearedNotif, isErrorNotif]

theorem tomorrowPhase_absent (u : UserState) (gs : List Str) (now : JsTime) :
    tomorrowPhase u gs none now =
      ({ u with
          lastLoeTomorrowCheckedAt := some now
          lastLoeTomorrowError := none
          lastLoeTomorrowStatus := some .missing }, []) := rfl

theorem tomorrowPhase_no_appeared {u : UserState} (gs : List Str)
    (tom : Option MenuItemView) (now : JsTime)
    (hst : u.lastLoeTomorrowStatus = some .present) :
    ((tomorrowPhase u gs tom now).2.countP isAppearedNotif) = 0 := by
  unfold tomorrowPhase
  cases tom with
  | none => simp
  | some tm =>
    dsimp only
    have happ : (u.lastLoeTomorrowStatus != some TomorrowStatus.present) = false := by
      rw [hst]; simp
    rw [happ]
    simp only [Bool.false_eq_true, if_false]
    split_ifs <;> simp [isAppearedNotif]

theorem tomorrowPhase_appears {u : UserState} {gs : List Str} {tm : MenuItemView}
    {now : JsTime} (hst : u.lastLoeTomorrowStatus = some .missing)
    (hdata : tomorrowHasAnyData gs tm = true) :
    tomorrowPhase u gs (some tm) now =
      ({ u with
          lastLoeTomorrowCheckedAt := some now
          lastLoeTomorrowError := none
          lastLoeTomorrowStatus := some .present
          lastLoeTomorrowWatchedText := some (tomorrowWatchedText gs tm)
          lastLoeTomorrowNotifiedAt := some now },
       [.tomorrowAppeared (tomorrowWatchedText gs tm)]) := by
  unfold tomorrowPhase
  dsimp only
  have happ : (u.lastLoeTomorrowStatus != some TomorrowStatus.present) = true := by
    rw [hst]; simp
  rw [happ, hdata]
  simp

theorem todayPhase_first_seen {u : UserState} {gs : List Str} {td : MenuItemView}
    {now : JsTime} (hprev : u.lastLoeWatchedText = none) :
    todayPhase u gs td false now =
      ({ u with
          lastLoeCheckedAt := some now
          lastLoeError := none
          lastLoeWatchedText := some (todayWatchedText gs td) }, []) := by
  simp only [todayPhase, hprev, truthyOptStr, Bool.not_false, if_true, if_false,
    Bool.false_eq_true, Bool.true_eq_false]

theorem todayPhase_first_seen_forced {u : UserState} {gs : List Str} {td : MenuItemView}
    {now : JsTime} (hprev : u.lastLoeWatchedText = none) :
    todayPhase u gs td true now =
      ({ u with
          lastLoeCheckedAt := some now
          lastLoeError := none
          lastLoeWatchedText := some (todayWatchedText gs td)
          lastLoeNotifiedAt := some now },
       [.todayForced (todayWatchedText gs td)]) := by
  simp only [todayPhase, hprev, truthyOptStr, Bool.not_false, if_true, if_false,
    Bool.false_eq_true, Bool.true_eq_false]

theorem todayPhase_unchanged_rollover {u : UserState} {gs : List Str} {td : MenuItemView}
    {prevTxt : Str} {tn now : JsTime}
    (hprev : u.lastLoeWatchedText = some prevTxt) (hpne : prevTxt ≠ [])
    (hpeq : extractGroupLinesOnly prevTxt = todayWatchedGroupsText gs td)
    (hgne : todayWatchedGroupsText gs td ≠ [])
    (hnotif : u.lastLoeNotifiedAt = some tn)
    (hd : tn.getDate ≠ now.getDate) :
    todayPhase u gs td false now =
      ({ u with
          lastLoeCheckedAt := some now
          lastLoeError := none
          lastLoeWatchedText := some (todayWatchedText gs td)
          lastLoeNotifiedAt := some now },
       [.todayArrived (todayWatchedText gs td)]) := by
  have h1 : truthyOptStr (some prevTxt) = true := by
    cases prevTxt with
    | nil => exact absurd rfl hpne
    | cons c t => rfl
  have h2 : truthyOptStr (some (extractGroupLinesOnly prevTxt)) = true := by
    rw [hpeq]
    cases hG : todayWatchedGroupsText gs td with
    | nil => exact absurd hG hgne
    | cons c t => rfl
  have h3 : (extractGroupLinesOnly prevTxt != todayWatchedGroupsText gs td) = false := by
    rw [hpeq]; simp
  have h4 : (tn.getDate != now.getDate) = true := by simp [bne_iff_ne, hd]
  simp only [todayPhase, hprev, h1, if_true, h2, hnotif, h3, h4, Bool.not_true,
    Bool.false_or, Bool.or_false, Bool.or_true, if_false, Bool.not_false,
    Option.getD_some, Bool.false_eq_true, Bool.true_eq_false]

theorem todayPhase_unchanged_same_day {u : UserState} {gs : List Str} {td : MenuItemView}
    {prevTxt : Str} {tn now : JsTime}
    (hprev : u.lastLoeWatchedText = some prevTxt) (hpne : prevTxt ≠ [])
    (hpeq : extractGroupLinesOnly prevTxt = todayWatchedGroupsText gs td)
    (hgne : todayWatchedGroupsText gs td ≠ [])
    (hnotif : u.lastLoeNotifiedAt = some tn)
    (hd : tn.getDate = now.getDate) :
    todayPhase u gs td false now =
      ({ u with
          lastLoeCheckedAt := some now
          lastLoeError := none }, []) := by
  have h1 : truthyOptStr (some prevTxt) = true := by
    cases prevTxt with
    | nil => exact absurd rfl hpne
    | cons c t => rfl
  have h2 : truthyOptStr (some (extractGroupLinesOnly prevTxt)) = true := by
    rw [hpeq]
    cases hG : todayWatchedGroupsText gs td with
    | nil => exact absurd hG hgne
    | cons c t => rfl
  have h3 : (extractGroupLinesOnly prevTxt != todayWatchedGroupsText gs td) = false := by
    rw [hpeq]; simp
  have h4 : (tn.getDate != now.getDate) = false := by simp [bne_iff_ne, hd]
  simp only [todayPhase, hprev, h1, if_true, h2, hnotif, h3, h4, Bool.not_true,
    Bool.false_or, Bool.or_false, Bool.or_true, if_false, Bool.not_false,
    Option.getD_some, Bool.false_eq_true, Bool.true_eq_false]

theorem checkOneChat_ok {u : UserState} {g0 : Str} {gs' : List Str} {td : MenuItemView}
    {tom : Option MenuItemView} {now : JsTime} (f : Bool) (hw : u.watching = true)
    (hg : u.groups = some (g0 :: gs')) :
    checkOneChat u f (.ok ⟨some td, tom⟩) now =
      ((tomorrowPhase (todayPhase u (g0 :: gs') td f now).1 (g0 :: gs') tom now).1,
        (todayPhase u (g0 :: gs') td f now).2 ++
        (tomorrowPhase (todayPhase u (g0 :: gs') td f now).1 (g0 :: gs') tom now).2) := by
  unfold checkOneChat
  rw [hw, hg]
  rfl

/-! ### The tomorrow-context change rule (C1) -/

/-- C1: on a state whose stored tomorrow header lines are identical to
the current ones while the subgroup text differs, the check still sends
the "tomorrow's schedule changed" notification.  The source compares the
two freshly built header-line arrays with `!==`, which is reference
inequality and therefore always true, so the header-difference
requirement is never actually enforced. -/
theorem tomorrow_change_sent_despite_equal_headers :
    headerLinesOf exStoredTomorrow = headerLinesOf exTomorrowText ∧
    extractGroupLinesOnly exStoredTomorrow ≠
      tomorrowWatchedGroupsText ["1.1".data] ⟨exTomorrowText, []⟩ ∧
    exC1User.lastLoeTomorrowStatus = some .present ∧
    (checkOneChat exC1User false exFetchBoth exNow).2 =
      [.tomorrowChanged (tomorrowWatchedText ["1.1".data] ⟨exTomorrowText, []⟩)] :=
  ⟨by decide, by decide, rfl, by decide⟩

/-! ### The today-context day-rollover rule (C2) -/

/-- C2 counterexample: the last notification was on 5 September 2025 and
the check runs on 5 October 2025 — a different calendar day but the same
day of the month — with the rendered subgroup text equal to the stored
baseline; no notification is sent and `lastLoeNotifiedAt` is unchanged. -/
theorem today_rollover_calendar_counterexample :
    extractGroupLinesOnly exStoredToday =
      todayWatchedGroupsText ["1.1".data] ⟨exTodayText, []⟩ ∧
    exC2User.lastLoeNotifiedAt = some ⟨2025, 9, 5⟩ ∧
    (JsTime.mk 2025 9 5 ≠ exNow) ∧
    (JsTime.mk 2025 9 5).getDate = exNow.getDate ∧
    (checkOneChat exC2User false exFetchTodayOnly exNow).2 = [] ∧
    (checkOneChat exC2User false exFetchTodayOnly exNow).1.lastLoeNotifiedAt =
      exC2User.lastLoeNotifiedAt :=
  ⟨by decide, rfl, by decide, rfl, by decide, by decide⟩

/-- C2 (amended): for a subscriber with a stored today baseline whose
extracted subgroup text equals the currently rendered subgroup text, a
background check notifies exactly when the day of the month (`getDate`)
of the last notification differs from the current day of the month — not
the full calendar day — updating the baseline and `lastLoeNotifiedAt`;
when the day of the month coincides, no today-context notification is
sent and baseline and `lastLoeNotifiedAt` keep their values. -/
theorem today_rollover_day_of_month_rule (u : UserState) (g0 : Str) (gs' : List Str)
    (td : MenuItemView) (tom : Option MenuItemView) (prevTxt : Str) (tn now : JsTime)
    (hw : u.watching = true) (hg : u.groups = some (g0 :: gs'))
    (hprev : u.lastLoeWatchedText = some prevTxt) (hpne : prevTxt ≠ [])
    (hpeq : extractGroupLinesOnly prevTxt = todayWatchedGroupsText (g0 :: gs') td)
    (hgne : todayWatchedGroupsText (g0 :: gs') td ≠ [])
    (hnotif : u.lastLoeNotifiedAt = some tn) :
    (tn.getDate ≠ now.getDate →
      Notif.todayArrived (todayWatchedText (g0 :: gs') td) ∈
        (checkOneChat u false (.ok ⟨some td, tom⟩) now).2 ∧
      (checkOneChat u false (.ok ⟨some td, tom⟩) now).1.lastLoeWatchedText =
        some (todayWatchedText (g0 :: gs') td) ∧
      (checkOneChat u false (.ok ⟨some td, tom⟩) now).1.lastLoeNotifiedAt = some now) ∧
    (tn.getDate = now.getDate →
      (∀ n ∈ (checkOneChat u false (.ok ⟨some td, tom⟩) now).2, isTodayNotif n = false) ∧
      (checkOneChat u false (.ok ⟨some td, tom⟩) now).1.lastLoeNotifiedAt = some tn ∧
      (checkOneChat u false (.ok ⟨some td, tom⟩) now).1.lastLoeWatchedText = some prevTxt) := by
  rw [checkOneChat_ok false hw hg]
  constructor
  · intro hd
    rw [todayPhase_unchanged_rollover hprev hpne hpeq hgne hnotif hd]
    refine ⟨?_, ?_, ?_⟩
    · exact List.mem_append.mpr (Or.inl (List.mem_cons_self _ _))
    · rw [(tomorrowPhase_today_inv _ _ _ _).1]
    · rw [(tomorrowPhase_today_inv _ _ _ _).2.1]
  · intro hd
    rw [todayPhase_unchanged_same_day hprev hpne hpeq hgne hnotif hd]
    refine ⟨?_, ?_, ?_⟩
    · intro n hn
      rcases List.mem_append.mp hn with hn | hn
      · simp at hn
      · exact ((tomorrowPhase_today_inv _ _ _ _).2.2.2.2 n hn).1
    · rw [(tomorrowPhase_today_inv _ _ _ _).2.1]
      exact hnotif
    · rw [(tomorrowPhase_today_inv _ _ _ _).1]
      exact hprev

/-- C2 witness: the day-of-month rule applied to concrete subscribers
(one notified the previous day, one notified a month earlier on the same
day of the month). -/
theorem today_rollover_day_of_month_rule_witness :
    Notif.todayArrived (todayWatchedText ["1.1".data] ⟨exTodayText, []⟩) ∈
      (checkOneChat exC2bUser false exFetchTodayOnly exNow).2 ∧
    (∀ n ∈ (checkOneChat exC2User false exFetchTodayOnly exNow).2,
      isTodayNotif n = false) := by
  constructor
  · exact ((today_rollover_day_of_month_rule exC2bUser "1.1".data [] ⟨exTodayText, []⟩
      none exStoredToday ⟨2025, 10, 4⟩ exNow rfl rfl rfl (by decide) (by decide)
      (by decide) rfl).1 (by decide)).1
  · exact ((today_rollover_day_of_month_rule exC2User "1.1".data [] ⟨exTodayText, []⟩
      none exStoredToday ⟨2025, 9, 5⟩ exNow rfl rfl rfl (by decide) (by decide)
      (by decide) rfl).2 rfl).1

/-! ### First-ever check (C3) -/

/-- C3 counterexample: a first-ever background check (no stored baselines
at all, `forceCheck` false) with tomorrow present upstream does send a
notification — the tomorrow-context "appeared" message. -/
theorem first_check_sends_appeared :
    exC3User.lastLoeWatchedText = none ∧
    exC3User.lastLoeTomorrowWatchedText = none ∧
    (checkOneChat exC3User false exFetchBoth exNow).2 =
      [.tomorrowAppeared (tomorrowWatchedText ["1.1".data] ⟨exTomorrowText, []⟩)] :=
  ⟨rfl, rfl, by decide⟩

/-- C3 (amended): with no prior stored baseline, a background check stores
the today baseline silently and sends no today-context notification; a
today-context message on a first-ever check is sent exactly by a forced
check.  (A tomorrow-context "appeared" notification can still accompany
such a first check.) -/
theorem first_check_silent_today (u : UserState) (g0 : Str) (gs' : List Str)
    (td : MenuItemView) (tom : Option MenuItemView) (now : JsTime)
    (hw : u.watching = true) (hg : u.groups = some (g0 :: gs'))
    (hprev : u.lastLoeWatchedText = none) :
    ((checkOneChat u false (.ok ⟨some td, tom⟩) now).1.lastLoeWatchedText =
      some (todayWatchedText (g0 :: gs') td)) ∧
    (∀ n ∈ (checkOneChat u false (.ok ⟨some td, tom⟩) now).2, isTodayNotif n = false) ∧
    Notif.todayForced (todayWatchedText (g0 :: gs') td) ∈
      (checkOneChat u true (.ok ⟨some td, tom⟩) now).2 := by
  refine ⟨?_, ?_, ?_⟩
  · rw [checkOneChat_ok false hw hg, (tomorrowPhase_today_inv _ _ _ _).1,
      todayPhase_first_seen hprev]
  · intro n hn
    rw [checkOneChat_ok false hw hg] at hn
    rcases List.mem_append.mp hn with hn | hn
    · rw [todayPhase_first_seen hprev] at hn
      simp at hn
    · exact ((tomorrowPhase_today_inv _ _ _ _).2.2.2.2 n hn).1
  · rw [checkOneChat_ok true hw hg, todayPhase_first_seen_forced hprev]
    exact List.mem_append.mpr (Or.inl (List.mem_cons_self _ _))

/-- C3 witness: the amended first-check behaviour at a concrete fresh
subscriber. -/
theorem first_check_silent_today_witness :
    (∀ n ∈ (checkOneChat exC3User false exFetchBoth exNow).2, isTodayNotif n = false) ∧
    Notif.todayForced (todayWatchedText ["1.1".data] ⟨exTodayText, []⟩) ∈
      (checkOneChat exC3User true exFetchBoth exNow).2 :=
  ⟨(first_check_silent_today exC3User "1.1".data [] ⟨exTodayText, []⟩
      (some ⟨exTomorrowText, []⟩) exNow rfl rfl rfl).2.1,
    (first_check_silent_today exC3User "1.1".data [] ⟨exTodayText, []⟩
      (some ⟨exTomorrowText, []⟩) exNow rfl rfl rfl).2.2⟩

/-! ### Tomorrow-context appearance (C5) -/

theorem countP_eq_zero_of_all_false {l : List Notif} {p : Notif → Bool}
    (h : ∀ n ∈ l, p n = false) : l.countP p = 0 :=
  List.countP_eq_zero.mpr (fun a ha => by rw [h a ha]; exact Bool.false_ne_true)

/-- C5: the missing→present transition with data for a tracked subgroup
sends the "appeared" notification exactly once and flips the status to
`present`; once the status is `present`, no check ever sends the appeared
message again; and while tomorrow is absent upstream, a check sets the
status to `missing`, clears the tomorrow error, and sends neither a
tomorrow-context notification nor an error reply. -/
theorem tomorrow_appeared_exactly_once :
    (∀ (u : UserState) (g0 : Str) (gs' : List Str) (td tm : MenuItemView)
      (now : JsTime) (f : Bool), u.watching = true → u.groups = some (g0 :: gs') →
      u.lastLoeTomorrowStatus = some .missing →
      tomorrowHasAnyData (g0 :: gs') tm = true →
      ((checkOneChat u f (.ok ⟨some td, some tm⟩) now).2.countP isAppearedNotif = 1 ∧
       (checkOneChat u f (.ok ⟨some td, some tm⟩) now).1.lastLoeTomorrowStatus =
         some .present ∧
       Notif.tomorrowAppeared (tomorrowWatchedText (g0 :: gs') tm) ∈
         (checkOneChat u f (.ok ⟨some td, some tm⟩) now).2)) ∧
    (∀ (u : UserState) (f : Bool) (fetch : Except Str FetchOk) (now : JsTime),
      u.lastLoeTomorrowStatus = some .present →
      (checkOneChat u f fetch now).2.countP isAppearedNotif = 0) ∧
    (∀ (u : UserState) (g0 : Str) (gs' : List Str) (td : MenuItemView)
      (now : JsTime) (f : Bool), u.watching = true → u.groups = some (g0 :: gs') →
      ((checkOneChat u f (.ok ⟨some td, none⟩) now).1.lastLoeTomorrowStatus =
        some .missing ∧
       (checkOneChat u f (.ok ⟨some td, none⟩) now).1.lastLoeTomorrowError = none ∧
       ∀ n ∈ (checkOneChat u f (.ok ⟨some td, none⟩) now).2,
         isTomorrowNotif n = false ∧ isErrorNotif n = false)) := by
  refine ⟨?_, ?_, ?_⟩
  · intro u g0 gs' td tm now f hw hg hst hdata
    rw [checkOneChat_ok f hw hg]
    have hst' : (todayPhase u (g0 :: gs') td f now).1.lastLoeTomorrowStatus =
        some .missing := by
      rw [(todayPhase_tomorrow_inv _ _ _ _ _).1, hst]
    rw [tomorrowPhase_appears hst' hdata]
    refine ⟨?_, rfl, ?_⟩
    · rw [List.countP_append]
      rw [countP_eq_zero_of_all_false
        (fun n hn => ((todayPhase_tomorrow_inv u (g0 :: gs') td f now).2.2.2.2 n hn).2.1)]
      simp [isAppearedNotif]
    · exact List.mem_append.mpr (Or.inr (List.mem_cons_self _ _))
  · intro u f fetch now hst
    unfold checkOneChat
    split
    · simp
    · split
      · cases f <;> simp [noGroupsResult, isAppearedNotif]
      · cases f <;> simp [noGroupsResult, isAppearedNotif]
      · rename_i g0 gs' hgeq
        rcases fetch with e | r
        · cases f <;> simp [catchResult, isAppearedNotif]
        · rcases r with ⟨tdo, tom⟩
          cases tdo with
          | none => cases f <;> simp [catchResult, isAppearedNotif]
          | some td =>
            dsimp only
            rw [List.countP_append]
            rw [countP_eq_zero_of_all_false
              (fun n hn => ((todayPhase_tomorrow_inv u (g0 :: gs') td f now).2.2.2.2 n hn).2.1)]
            rw [tomorrowPhase_no_appeared (g0 :: gs') tom now
              (by rw [(todayPhase_tomorrow_inv _ _ _ _ _).1, hst])]
  · intro u g0 gs' td now f hw hg
    rw [checkOneChat_ok f hw hg, tomorrowPhase_absent]
    refine ⟨rfl, rfl, ?_⟩
    intro n hn
    rcases List.mem_append.mp hn with hn | hn
    · have h := (todayPhase_tomorrow_inv u (g0 :: gs') td f now).2.2.2.2 n hn
      exact ⟨h.1, h.2.2⟩
    · simp at hn

/-- C5 witness: the three parts of the appearance protocol at concrete
subscribers. -/
theorem tomorrow_appeared_exactly_once_witness :
    (checkOneChat exC5User false exFetchBoth exNow).2.countP isAppearedNotif = 1 ∧
    (checkOneChat exC1User false exFetchBoth exNow).2.countP isAppearedNotif = 0 ∧
    (checkOneChat exC5User false exFetchTodayOnly exNow).1.lastLoeTomorrowStatus =
      some .missing := by
  refine ⟨?_, ?_, ?_⟩
  · exact (tomorrow_appeared_exactly_once.1 exC5User "1.1".data [] ⟨exTodayText, []⟩
      ⟨exTomorrowText, []⟩ exNow false rfl rfl rfl (by decide)).1
  · exact tomorrow_appeared_exactly_once.2.1 exC1User false exFetchBoth exNow rfl
  · exact (tomorrow_appeared_exactly_once.2.2 exC5User "1.1".data [] ⟨exTodayText, []⟩
      exNow false rfl rfl).1

/-! ### Loading persisted state (C7) -/

/-- C7: loading persisted state never fails: a missing file, any other
read error, unparseable JSON, and any parsed value without the
`{ users: {...} }` shape all produce the empty store, while a well-shaped
value produces the normalized store with mistyped fields coerced by
`normalizeStateShape`. -/
theorem readStateFromDisk_total :
    readStateFromDisk .enoent = emptyBotState ∧
    readStateFromDisk .ioFailure = emptyBotState ∧
    readStateFromDisk (.fileContent none) = emptyBotState ∧
    (∀ v : JsVal, stateShapeOk v = false →
      readStateFromDisk (.fileContent (some v)) = emptyBotState) ∧
    (∀ v : JsVal, stateShapeOk v = true →
      readStateFromDisk (.fileContent (some v)) = normalizeStateShape v) := by
  refine ⟨rfl, rfl, rfl, ?_, ?_⟩
  · intro v hv
    have hred : readStateFromDisk (.fileContent (some v)) =
        if stateShapeOk v = true then normalizeStateShape v else emptyBotState := rfl
    rw [hred, hv]
    simp
  · intro v hv
    have hred : readStateFromDisk (.fileContent (some v)) =
        if stateShapeOk v = true then normalizeStateShape v else emptyBotState := rfl
    rw [hred, hv]
    simp

/-- C7 witness: a parsed array yields the empty store; the well-shaped
example value yields its normalized store. -/
theorem readStateFromDisk_total_witness :
    readStateFromDisk (.fileContent (some (.jarr []))) = emptyBotState ∧
    readStateFromDisk (.fileContent (some exBadStateVal)) =
      normalizeStateShape exBadStateVal :=
  ⟨readStateFromDisk_total.2.2.2.1 (.jarr []) (by decide),
   readStateFromDisk_total.2.2.2.2 exBadStateVal (by decide)⟩

/-! ### The serialization queue (C9) -/

theorem valid_start_prev_finished {tr : List QEvent} (hv : ValidTrace tr) :
    ∀ i p, tr.get? p = some (.start i) → ∀ j, j < i →
      ∃ q b, q < p ∧ tr.get? q = some (.finish j b) := by
  intro i
  induction i using Nat.strong_induction_on with
  | _ i ih =>
    intro p hp j hj
    have h1 : 1 ≤ i := by omega
    obtain ⟨q1, b1, hq1, hf1⟩ := hv.1 p i hp h1
    by_cases hji : j = i - 1
    · exact ⟨q1, b1, hq1, by rw [hji]; exact hf1⟩
    · have hj' : j < i - 1 := by omega
      obtain ⟨q2, hq2, hs2⟩ := hv.2.2.1 q1 (i - 1) b1 hf1
      have hi1 : i - 1 < i := by omega
      obtain ⟨q3, b3, hq3, hf3⟩ := ih (i - 1) hi1 q2 hs2 j hj'
      exact ⟨q3, b3, by omega, hf3⟩

theorem valid_fifo {tr : List QEvent} (hv : ValidTrace tr) {p q i j : Nat}
    (hp : tr.get? p = some (.start i)) (hq : tr.get? q = some (.start j))
    (hpq : p < q) : i < j := by
  by_contra hij
  push_neg at hij
  rcases Nat.lt_or_ge j i with hji | hji
  · obtain ⟨q1, b1, hq1, hf1⟩ := valid_start_prev_finished hv i p hp j hji
    obtain ⟨q2, hq2, hs2⟩ := hv.2.2.1 q1 j b1 hf1
    have heq := hv.2.1 q2 q j hs2 hq
    omega
  · have heq : j = i := by omega
    subst heq
    have heq2 := hv.2.1 p q j hp hq
    omega

theorem valid_mutual_exclusion {tr : List QEvent} (hv : ValidTrace tr)
    {p1 p2 p3 i j : Nat} {b : Bool} (h12 : p1 < p2) (h23 : p2 < p3)
    (hs1 : tr.get? p1 = some (.start i)) (hs2 : tr.get? p2 = some (.start j))
    (hf : tr.get? p3 = some (.finish i b)) : False := by
  rcases Nat.lt_trichotomy j i with hji | hji | hji
  · obtain ⟨q1, b1, hq1, hf1⟩ := valid_start_prev_finished hv i p1 hs1 j hji
    obtain ⟨q2, hq2, hs3⟩ := hv.2.2.1 q1 j b1 hf1
    have heq := hv.2.1 q2 p2 j hs3 hs2
    omega
  · subst hji
    have heq := hv.2.1 p1 p2 j hs1 hs2
    omega
  · obtain ⟨q1, b1, hq1, hf1⟩ := valid_start_prev_finished hv j p2 hs2 i hji
    have heq := hv.2.2.2 q1 p3 i b1 b hf1 hf
    omega

theorem seqTraceFrom_get?_inv {bs : List Bool} {k p : Nat} {e : QEvent}
    (h : (seqTraceFrom k bs).get? p = some e) :
    (∃ i, p = 2 * i ∧ e = .start (k + i) ∧ i < bs.length) ∨
    (∃ i b, p = 2 * i + 1 ∧ e = .finish (k + i) b ∧ i < bs.length) := by
  induction bs generalizing k p with
  | nil => simp [seqTraceFrom] at h
  | cons b bs ih =>
    match p with
    | 0 =>
      simp only [seqTraceFrom, List.get?_cons_zero, Option.some.injEq] at h
      exact Or.inl ⟨0, by omega, by rw [← h]; simp, by simp⟩
    | 1 =>
      simp only [seqTraceFrom, List.get?_cons_succ, List.get?_cons_zero,
        Option.some.injEq] at h
      exact Or.inr ⟨0, b, by omega, by rw [← h]; simp, by simp⟩
    | Nat.succ (Nat.succ n) =>
      simp only [seqTraceFrom, List.get?_cons_succ] at h
      rcases ih h with ⟨i, hp, he, hi⟩ | ⟨i, b', hp, he, hi⟩
      · refine Or.inl ⟨i + 1, by omega, ?_, by simp; omega⟩
        rw [he]
        congr 1
        omega
      · refine Or.inr ⟨i + 1, b', by omega, ?_, by simp; omega⟩
        rw [he]
        congr 1
        omega

theorem seqTraceFrom_get?_start (bs : List Bool) (k i : Nat) (h : i < bs.length) :
    (seqTraceFrom k bs).get? (2 * i) = some (.start (k + i)) := by
  induction bs generalizing k i with
  | nil => simp at h
  | cons b bs ih =>
    match i with
    | 0 => simp [seqTraceFrom]
    | Nat.succ m =>
      have hm : m < bs.length := by simp at h; omega
      have h2 : 2 * (m + 1) = (2 * m + 1) + 1 := by omega
      rw [h2]
      simp only [seqTraceFrom, List.get?_cons_succ]
      have hih := ih (k + 1) m hm
      rw [hih]
      congr 2
      omega

theorem seqTraceFrom_get?_finish (bs : List Bool) (k i : Nat) (h : i < bs.length) :
    ∃ b, (seqTraceFrom k bs).get? (2 * i + 1) = some (.finish (k + i) b) := by
  induction bs generalizing k i with
  | nil => simp at h
  | cons b bs ih =>
    match i with
    | 0 => exact ⟨b, by simp [seqTraceFrom]⟩
    | Nat.succ m =>
      have hm : m < bs.length := by simp at h; omega
      have h2 : 2 * (m + 1) + 1 = ((2 * m + 1) + 1) + 1 := by omega
      rw [h2]
      simp only [seqTraceFrom, List.get?_cons_succ]
      obtain ⟨b', hb'⟩ := ih (k + 1) m hm
      refine ⟨b', ?_⟩
      rw [hb']
      congr 2
      omega

theorem seqTrace_valid (bs : List Bool) : ValidTrace (seqTrace bs) := by
  unfold seqTrace
  refine ⟨?_, ?_, ?_, ?_⟩
  · intro p i hp h1
    rcases seqTraceFrom_get?_inv hp with ⟨m, hm, he, hlen⟩ | ⟨m, b1, hm, he, hlen⟩
    · injection he with hii
      obtain ⟨b, hb⟩ := seqTraceFrom_get?_finish bs 0 (i - 1) (by omega)
      refine ⟨2 * (i - 1) + 1, b, by omega, ?_⟩
      rw [hb]
      simp
    · simp at he
  · intro p q i hp hq
    rcases seqTraceFrom_get?_inv hp with ⟨m, hm, he, hlen⟩ | ⟨m, b1, hm, he, hlen⟩
    · rcases seqTraceFrom_get?_inv hq with ⟨m2, hm2, he2, hlen2⟩ | ⟨m2, b2, hm2, he2, hlen2⟩
      · injection he with h1
        injection he2 with h2
        omega
      · simp at he2
    · simp at he
  · intro p i b hp
    rcases seqTraceFrom_get?_inv hp with ⟨m, hm, he, hlen⟩ | ⟨m, b1, hm, he, hlen⟩
    · simp at he
    · injection he with h1 h2
      refine ⟨2 * m, by omega, ?_⟩
      rw [h1]
      exact seqTraceFrom_get?_start bs 0 m hlen
  · intro p q i b b2 hp hq
    rcases seqTraceFrom_get?_inv hp with ⟨m, hm, he, hlen⟩ | ⟨m, b1, hm, he, hlen⟩
    · simp at he
    · rcases seqTraceFrom_get?_inv hq with ⟨m2, hm2, he2, hlen2⟩ | ⟨m2, b3, hm2, he2, hlen2⟩
      · simp at he2
      · injection he with h1 h3
        injection he2 with h2 h4
        omega

/-- C9: the `runStateOp` promise chain serializes state-mutating units: in
every execution trace allowed by the chain discipline, units start in FIFO
submission order and no unit starts while another is between its start
and its settling; and for every submission list — rejected outcomes
included — the back-to-back execution is an allowed trace in which every
unit runs, so a rejection never blocks later units. -/
theorem runStateOp_queue_protocol :
    (∀ tr : List QEvent, ValidTrace tr → ∀ p q i j,
      tr.get? p = some (.start i) → tr.get? q = some (.start j) → p < q → i < j) ∧
    (∀ tr : List QEvent, ValidTrace tr → ∀ p1 p2 p3 i j b, p1 < p2 → p2 < p3 →
      tr.get? p1 = some (.start i) → tr.get? p2 = some (.start j) →
      tr.get? p3 = some (.finish i b) → False) ∧
    (∀ outcomes : List Bool, ValidTrace (seqTrace outcomes) ∧
      ∀ i, i < outcomes.length → ∃ p q b,
        (seqTrace outcomes).get? p = some (.start i) ∧
        (seqTrace outcomes).get? q = some (.finish i b)) := by
  refine ⟨fun tr hv p q i j hp hq hpq => valid_fifo hv hp hq hpq,
    fun tr hv p1 p2 p3 i j b h12 h23 hs1 hs2 hf =>
      valid_mutual_exclusion hv h12 h23 hs1 hs2 hf,
    fun outcomes => ⟨seqTrace_valid outcomes, fun i hi => ?_⟩⟩
  obtain ⟨b, hb⟩ := seqTraceFrom_get?_finish outcomes 0 i hi
  have hs := seqTraceFrom_get?_start outcomes 0 i hi
  exact ⟨2 * i, 2 * i + 1, b, by simpa [seqTrace] using hs, by simpa [seqTrace] using hb⟩

/-- C9 witness: the canonical trace for two submissions, the first of
which rejects; the trace is valid and the second unit still runs. -/
theorem runStateOp_queue_protocol_witness :
    ValidTrace (seqTrace [false, true]) ∧
    (∃ p q b, (seqTrace [false, true]).get? p = some (.start 1) ∧
      (seqTrace [false, true]).get? q = some (.finish 1 b)) :=
  ⟨(runStateOp_queue_protocol.2.2 [false, true]).1,
   (runStateOp_queue_protocol.2.2 [false, true]).2 1 (by decide)⟩

end PowerOnBot
